import Mathlib

set_option maxRecDepth 4000000

/-!
# Verification of the MINIMIZE.CPP optimization kernel

Shallow embedding of the three minimization routines of `MINIMIZE.CPP`
(`glob_min`, `brentmin`, `powell`) in exact rational arithmetic (`ℚ` stands
for the C `double`s; the claims are interpreted in exact real arithmetic).

Conventions of the embedding:
* C `double` values become `ℚ`.  Division by zero in `ℚ` yields `0`.
* `glob_min` is embedded for linear spacing (`log_space = 0`, the only mode
  exercised by `powell`); logarithmic spacing would need `exp`/`log`, which
  are not rational.
* The unbounded boundary-extension loops (`for(;;)`) of `glob_min` take an
  explicit fuel argument and return `none` when the fuel runs out, so
  "completes normally" is the hypothesis `= some r`.
* Loops with a static iteration bound (`brentmin`'s main loop, `powell`'s
  `mult` loop) are embedded structurally.
-/

/-! ## GLOB_MIN - grid scan for a rough global minimum (MINIMIZE.CPP 37-173) -/

/-- The output triple `(x1,y1),(x2,y2),(x3,y3)` of `glob_min`. -/
structure GTriple where
  x1 : ℚ
  y1 : ℚ
  x2 : ℚ
  y2 : ℚ
  x3 : ℚ
  y3 : ℚ
deriving DecidableEq, Repr, Inhabited

/-- The mutable locals and output cells of `glob_min`'s scan loop:
`x`, `previous`, `ibest`, `turned_up` and the cells `*x2,*y2,*y1,*y3`. -/
structure ScanState where
  x : ℚ
  previous : ℚ
  ibest : Int
  turned_up : Bool
  x2 : ℚ
  y2 : ℚ
  y1 : ℚ
  y3 : ℚ
deriving DecidableEq, Repr, Inhabited

/-- One pass of the body of `glob_min`'s scan loop (MINIMIZE.CPP 75-93) at
index `i`, up to but not including the early-exit test and the advance of
`x`: evaluate the criterion (or reuse `*y2` when `i = 0` and the caller
passed `npts < 0`), update the best point or the right neighbor, and record
`previous`. -/
def scanStep (criter : ℚ → ℚ) (know_first : Bool) (i : Nat) (s : ScanState) : ScanState :=
  let y := if i ≠ 0 ∨ ¬ know_first then criter s.x else s.y2
  let s' :=
    if i = 0 ∨ y < s.y2 then
      { s with ibest := (i : Int), x2 := s.x, y2 := y, y1 := s.previous, turned_up := false }
    else if (i : Int) = s.ibest + 1 then
      { s with y3 := y, turned_up := true }
    else s
  { s' with previous := y }

/-- The early-exit condition of `glob_min`'s scan loop (MINIMIZE.CPP 95):
the best value is at or below `critlim`, the best point is not the first
point scanned, and a later point has been seen that did not improve. -/
def earlyExit (critlim : ℚ) (s : ScanState) : Prop :=
  s.y2 ≤ critlim ∧ 0 < s.ibest ∧ s.turned_up = true

instance (critlim : ℚ) (s : ScanState) : Decidable (earlyExit critlim s) :=
  inferInstanceAs (Decidable (_ ∧ _ ∧ _))

/-- Advance of the abscissa between scan passes (MINIMIZE.CPP 98-101,
linear spacing): `x += rate`. -/
def scanAdvance (rate : ℚ) (s : ScanState) : ScanState :=
  { x := s.x + rate, previous := s.previous, ibest := s.ibest, turned_up := s.turned_up,
    x2 := s.x2, y2 := s.y2, y1 := s.y1, y3 := s.y3 }

/-- `glob_min`'s scan loop (MINIMIZE.CPP 73-102) from index `i` with
`rem` points still to scan.  Returns the final state together with the
total number of points processed (the index right after the last one). -/
def scanAux (criter : ℚ → ℚ) (critlim rate : ℚ) (know_first : Bool) :
    Nat → Nat → ScanState → ScanState × Nat
  | 0, i, s => (s, i)
  | rem+1, i, s =>
    let s' := scanStep criter know_first i s
    if earlyExit critlim s' then (s', i + 1)
    else scanAux criter critlim rate know_first rem (i + 1) (scanAdvance rate s')

/-- The scan loop with the early-exit test removed: processes every point.
Used to state which prefix of the scan first satisfies the exit test. -/
def scanNB (criter : ℚ → ℚ) (rate : ℚ) (know_first : Bool) :
    Nat → Nat → ScanState → ScanState
  | 0, _, s => s
  | rem+1, i, s =>
    let s' := scanStep criter know_first i s
    scanNB criter rate know_first rem (i + 1) (scanAdvance rate s')

/-- The rightward boundary-extension loop of `glob_min`
(MINIMIZE.CPP 126-147), with fuel.  Each round evaluates the criterion at
`x3`, stops when the function increased or the three values are flat, and
otherwise shifts the triple right, doubles the step, and advances `x3`. -/
def extendRight (criter : ℚ → ℚ) : Nat → ℚ → GTriple → Option GTriple
  | 0, _, _ => none
  | fuel+1, rate, t =>
    let y3 := criter t.x3
    if y3 > t.y2 then some { t with y3 := y3 }
    else if t.y1 = t.y2 ∧ t.y2 = y3 then some { t with y3 := y3 }
    else
      let rate' := 2 * rate
      extendRight criter fuel rate'
        { x1 := t.x2, y1 := t.y2, x2 := t.x3, y2 := y3, x3 := t.x3 + rate', y3 := y3 }

/-- The leftward boundary-extension loop of `glob_min`
(MINIMIZE.CPP 149-170), with fuel. -/
def extendLeft (criter : ℚ → ℚ) : Nat → ℚ → GTriple → Option GTriple
  | 0, _, _ => none
  | fuel+1, rate, t =>
    let y1 := criter t.x1
    if y1 > t.y2 then some { t with y1 := y1 }
    else if y1 = t.y2 ∧ t.y2 = t.y3 then some { t with y1 := y1 }
    else
      let rate' := 2 * rate
      extendLeft criter fuel rate'
        { x1 := t.x1 - rate', y1 := y1, x2 := t.x1, y2 := y1, x3 := t.x2, y3 := t.y2 }

/-- The grid step of `glob_min` for linear spacing (MINIMIZE.CPP 65):
`rate = (high - low) / (npts - 1)`.  (For `npts = 1` the `ℚ` convention
gives `rate = 0`.) -/
def globRate (low high : ℚ) (np : Nat) : ℚ := (high - low) / ((np : ℚ) - 1)

/-- The initial scan state of `glob_min` (MINIMIZE.CPP 67-71): `x = low`,
`previous = 0`, `ibest = -1`, `turned_up = 0`; `*y2` holds the caller's
value (read only when `npts < 0`), the other output cells are modelled as
starting at `0`. -/
def globInit (low y2init : ℚ) : ScanState :=
  { x := low, previous := 0, ibest := -1, turned_up := false,
    x2 := 0, y2 := y2init, y1 := 0, y3 := 0 }

/-- `glob_min` (MINIMIZE.CPP 37-173), linear spacing.  A negative `npts`
means the caller passes `f low` in `y2init`.  `fuel` bounds the
boundary-extension loops; `none` means a `for(;;)` loop did not finish
within `fuel` rounds. -/
def glob_min (fuel : Nat) (criter : ℚ → ℚ) (low high : ℚ) (npts : Int)
    (critlim : ℚ) (y2init : ℚ) : Option GTriple :=
  let know_first := npts < 0
  let np := npts.natAbs
  let rate := globRate low high np
  let scanned := scanAux criter critlim rate know_first np 0 (globInit low y2init)
  let s := scanned.1
  let t : GTriple :=
    { x1 := s.x2 - rate, y1 := s.y1, x2 := s.x2, y2 := s.y2, x3 := s.x2 + rate, y3 := s.y3 }
  if s.turned_up = false then extendRight criter fuel rate t
  else if s.ibest = 0 then extendLeft criter fuel rate t
  else some t

/-! ## BRENTMIN - Brent's method line refinement (MINIMIZE.CPP 190-336) -/

/-- The mutable locals of `brentmin`'s main loop: the three best abscissas
`x0 ≤ x1 ≤ x2` (by value), their values, the bracket `xleft,xright`, and
the step bookkeeping `movement`, `trial`. -/
structure BrentState where
  x0 : ℚ
  x1 : ℚ
  x2 : ℚ
  y0 : ℚ
  y1 : ℚ
  y2 : ℚ
  xleft : ℚ
  xright : ℚ
  movement : ℚ
  trial : ℚ
deriving DecidableEq, Repr, Inhabited

/-- `small_step` (MINIMIZE.CPP 239-242): `tol` scaled by `max |x0| 1`. -/
def smallStep (tol : ℚ) (s : BrentState) : ℚ := (max |s.x0| 1) * tol

/-- The bracket midpoint `xmid` (MINIMIZE.CPP 245). -/
def xmidOf (s : BrentState) : ℚ := (s.xleft + s.xright) / 2

/-- `temp1` of the parabolic fit (MINIMIZE.CPP 258). -/
def parTemp1 (s : BrentState) : ℚ := (s.x0 - s.x2) * (s.y0 - s.y1)

/-- `temp2` of the parabolic fit (MINIMIZE.CPP 259). -/
def parTemp2 (s : BrentState) : ℚ := (s.x0 - s.x1) * (s.y0 - s.y2)

/-- Numerator of the parabolic step (MINIMIZE.CPP 260). -/
def parNumer (s : BrentState) : ℚ :=
  (s.x0 - s.x1) * parTemp2 s - (s.x0 - s.x2) * parTemp1 s

/-- Denominator of the parabolic step (MINIMIZE.CPP 261). -/
def parDenom (s : BrentState) : ℚ := 2 * (parTemp1 s - parTemp2 s)

/-- The parabolic estimate of the step to the minimum (MINIMIZE.CPP
264-267): the division is performed only when `|denom| > 1e-40`; otherwise
the sentinel `1e40` is produced. -/
def parTrial (s : BrentState) : ℚ :=
  if |parDenom s| > 1e-40 then parNumer s / parDenom s else 1e40

/-- The golden-section movement (MINIMIZE.CPP 278, 283): the displacement
from `x0` to the far end of the larger half of the bracket. -/
def goldenMove (s : BrentState) : ℚ :=
  if xmidOf s > s.x0 then s.xright - s.x0 else s.xleft - s.x0

/-- The step-choice logic of one `brentmin` iteration (MINIMIZE.CPP
257-285): returns the pair `(trial, movement)` after the
parabolic-versus-golden decision.  A parabolic attempt is made only when
`|movement| > small_step`; it is accepted when the new step is less than
half the previous `movement` (`testdist`) in magnitude and lands strictly
inside the bracket; an accepted step that lands within `2*small_step` of an
endpoint is replaced by `±small_step`; a rejected attempt and an
insufficient `movement` both fall back to the golden-section step
`0.3819660 * goldenMove`. -/
def brentChoose (tol : ℚ) (s : BrentState) : ℚ × ℚ :=
  if |s.movement| > smallStep tol s then
    let tr := parTrial s
    let tmp := tr + s.x0
    if 2 * |tr| < |s.movement| ∧ tmp > s.xleft ∧ tmp < s.xright then
      if tmp - s.xleft < 2 * smallStep tol s ∨ s.xright - tmp < 2 * smallStep tol s then
        (if s.x0 < xmidOf s then smallStep tol s else -(smallStep tol s), s.trial)
      else (tr, s.trial)
    else (0.3819660 * goldenMove s, goldenMove s)
  else (0.3819660 * goldenMove s, goldenMove s)

/-- The point actually evaluated in one `brentmin` iteration
(MINIMIZE.CPP 287-290): the trial step, pushed out to at least
`small_step` from `x0`. -/
def brentThisX (tol : ℚ) (s : BrentState) : ℚ :=
  let t := (brentChoose tol s).1
  if |t| ≥ smallStep tol s then s.x0 + t
  else if t > 0 then s.x0 + smallStep tol s else s.x0 - smallStep tol s

/-- Insertion of the newly evaluated point into the best-point hierarchy
and shrinkage of the bracket (MINIMIZE.CPP 297-328). -/
def brentRank (s : BrentState) (tx ty m t : ℚ) : BrentState :=
  if ty ≤ s.y0 then
    { x0 := tx, x1 := s.x0, x2 := s.x1, y0 := ty, y1 := s.y0, y2 := s.y1,
      xleft := if tx < s.x0 then s.xleft else s.x0,
      xright := if tx < s.x0 then s.x0 else s.xright,
      movement := m, trial := t }
  else
    let xl := if tx ≥ s.x0 then s.xleft else tx
    let xr := if tx ≥ s.x0 then tx else s.xright
    if ty ≤ s.y1 ∨ s.x1 = s.x0 then
      { s with xleft := xl, xright := xr, x2 := s.x1, x1 := tx, y2 := s.y1, y1 := ty,
               movement := m, trial := t }
    else if ty ≤ s.y2 ∨ s.x2 = s.x0 ∨ s.x2 = s.x1 then
      { s with xleft := xl, xright := xr, x2 := tx, y2 := ty, movement := m, trial := t }
    else { s with xleft := xl, xright := xr, movement := m, trial := t }

/-- One iteration of `brentmin`'s main loop (MINIMIZE.CPP 228-329) at
iteration number `iter`.  `none` means one of the three stop tests fired
(note the `critlim` test on line 230 is the strict `y0 < critlim`). -/
def brentStep (criter : ℚ → ℚ) (critlim eps tol : ℚ) (iter : Nat) (s : BrentState) :
    Option BrentState :=
  if s.y0 < critlim then none
  else if |s.x0 - xmidOf s| ≤ 2 * smallStep tol s - (s.xright - s.xleft) / 2 then none
  else if 4 ≤ iter ∧ (s.y2 - s.y0) / (s.y0 + 1) < eps then none
  else
    let c := brentChoose tol s
    let tx := brentThisX tol s
    some (brentRank s tx (criter tx) c.2 c.1)

/-- `brentmin`'s main loop: run up to `rem` iterations starting at
iteration number `iter`; returns the final state and the number of
iterations whose body ran to completion. -/
def brentLoop (criter : ℚ → ℚ) (critlim eps tol : ℚ) :
    Nat → Nat → BrentState → BrentState × Nat
  | 0, _, s => (s, 0)
  | rem+1, iter, s =>
    match brentStep criter critlim eps tol iter s with
    | none => (s, 0)
    | some s' =>
      let r := brentLoop criter critlim eps tol rem (iter + 1) s'
      (r.1, r.2 + 1)

/-- Run `k` iterations of `brentmin` starting at iteration number `iter`,
returning `none` if a stop test fires before `k` full iterations. -/
def brentStates (criter : ℚ → ℚ) (critlim eps tol : ℚ) :
    Nat → Nat → BrentState → Option BrentState
  | 0, _, s => some s
  | k+1, iter, s =>
    (brentStep criter critlim eps tol iter s).bind
      (brentStates criter critlim eps tol k (iter + 1))

/-- The outputs of `brentmin`: the narrowed bracket `*xa,*xb,*xc`
(MINIMIZE.CPP 331-333), the returned best value `y0`, and the number of
completed loop iterations. -/
structure BrentResult where
  xa : ℚ
  xb : ℚ
  xc : ℚ
  ret : ℚ
  iters : Nat
deriving DecidableEq, Repr, Inhabited

/-- The initial loop state of `brentmin` (MINIMIZE.CPP 211-222):
`x0 = x1 = x2 = *xb`, `y0 = y1 = y2 = y`, bracket `(*xa, *xc)`, and
`movement = trial = 0` to force a first golden-section step. -/
def brentInit (xa xb xc y : ℚ) : BrentState :=
  { x0 := xb, x1 := xb, x2 := xb, y0 := y, y1 := y, y2 := y,
    xleft := xa, xright := xc, movement := 0, trial := 0 }

/-- `brentmin` (MINIMIZE.CPP 190-336). -/
def brentmin (itmax : Nat) (critlim eps tol : ℚ) (criter : ℚ → ℚ)
    (xa xb xc y : ℚ) : BrentResult :=
  let r := brentLoop criter critlim eps tol itmax 0 (brentInit xa xb xc y)
  { xa := r.1.xleft, xb := r.1.x0, xc := r.1.xright, ret := r.1.y0, iters := r.2 }

/-! ## POWELL - direction-set minimization (MINIMIZE.CPP 358-592)

Vectors are `List ℚ` of length `n`.  The process-wide statics
(`local_x`, `local_base`, `local_direc`, `local_criter`) that implement the
univariate wrapper `univar_crit` are modelled functionally: `univar_crit`
becomes the closure `fun t => criter (base + t • direc_row)`.  (The C
version also writes the probe point into `x`; `powell` overwrites `x`
explicitly before every later read, so the functional model is
observationally faithful.)  The C `sqrt` used to normalize the replacement
direction has no exact rational counterpart, so the embedding takes an
arbitrary function `sqrtQ : ℚ → ℚ` as a parameter; every theorem below
holds for all `sqrtQ`. -/

/-- Scalar multiple of a vector. -/
def vsmul (t : ℚ) (v : List ℚ) : List ℚ := v.map (fun a => t * a)

/-- Componentwise sum. -/
def vadd (a b : List ℚ) : List ℚ := List.zipWith (· + ·) a b

/-- Componentwise difference. -/
def vsub (a b : List ℚ) : List ℚ := List.zipWith (· - ·) a b

/-- Dot product. -/
def vdot (a b : List ℚ) : ℚ := (List.zipWith (· * ·) a b).sum

/-- `univar_crit` (MINIMIZE.CPP 585-592): the scalar criterion along a
direction from a base point. -/
def univar (criter : List ℚ → ℚ) (base dir : List ℚ) (t : ℚ) : ℚ :=
  criter (vadd base (vsmul t dir))

/-- The caller-independent parameters of one `powell` call. -/
structure PParams where
  maxits : Int
  critlim : ℚ
  tol : ℚ
  criter : List ℚ → ℚ
  n : Nat
  sqrtQ : ℚ → ℚ
  fuel : Nat
deriving Inhabited

/-- The state of `powell`'s outer loop (MINIMIZE.CPP 399-403): the current
point and best value, `prev_best`, the smoothed `scale`, the direction
matrix (list of `n` rows), the convergence counter, the index of the row
replaced in the previous iteration (`-1` if none), and the iteration
counter `iter`. -/
structure PowellState where
  x : List ℚ
  fbest : ℚ
  prev_best : ℚ
  scale : ℚ
  direc : List (List ℚ)
  conv : Nat
  replaced : Int
  iter : Nat
deriving DecidableEq, Repr, Inhabited

/-- Why `powell`'s outer loop stopped: the iteration cap (line 407), the
`critlim` test (line 410), the convergence counter (line 423), the
`goto FINISH` escape from the per-direction loop (line 469), or the
`break` in the replacement branch (line 553). -/
inductive HaltWhy where
  | cap : HaltWhy
  | crit : HaltWhy
  | conv : HaltWhy
  | finishGoto : HaltWhy
  | replCrit : HaltWhy
deriving DecidableEq, Repr, Inhabited

/-- The `mult` loop around `glob_min` (MINIMIZE.CPP 452-458 and 536-542):
try trial half-widths `mult * scale` for `mult = 0.1, 0.4, 1.6, 6.4`,
stopping as soon as the returned triple brackets a minimum
(`y2 < y1 ∧ y2 < y3`); the results of the last call are used either way.
`none` propagates fuel exhaustion inside `glob_min`. -/
def multLoop (p : PParams) (f1 : ℚ → ℚ) (scale fb : ℚ) : Nat → ℚ → Option GTriple
  | 0, _ => none
  | fg+1, mult => do
    let r ← glob_min p.fuel f1 (-(mult * scale)) (mult * scale) 15 p.critlim fb
    if r.y2 < r.y1 ∧ r.y2 < r.y3 then some r
    else if 4 * mult < 11 then multLoop p f1 scale fb fg (4 * mult)
    else some r

/-- The `brentmin` call of `powell` (MINIMIZE.CPP 472-477 and 555-560):
refine extra hard (40 iterations, tight tolerance) when the convergence
counter is nonzero, else moderately (20 iterations). -/
def powellBrent (p : PParams) (conv : Nat) (f1 : ℚ → ℚ) (t : GTriple) : BrentResult :=
  if conv ≠ 0 then brentmin 40 p.critlim p.tol 1e-7 f1 t.x1 t.x2 t.x3 t.y2
  else brentmin 20 p.critlim (10 * p.tol) 1e-5 f1 t.x1 t.x2 t.x3 t.y2

/-- The running state of the per-direction loop (MINIMIZE.CPP 445-487). -/
structure DirState where
  x : List ℚ
  fbest : ℚ
  delta : ℚ
  idelta : Nat
  scale : ℚ
deriving DecidableEq, Repr, Inhabited

/-- The per-direction loop of `powell` (MINIMIZE.CPP 445-487): minimize
along each direction row in turn, tracking the largest single-direction
improvement in `delta`/`idelta`.  `Sum.inr` is the `goto FINISH` escape
(line 469) carrying the final point and value. -/
def dirLoop (p : PParams) (conv : Nat) (replaced : Int) :
    List (List ℚ) → Nat → DirState → Option (DirState ⊕ (List ℚ × ℚ))
  | [], _, d => some (Sum.inl d)
  | row :: rest, idir, d =>
    if p.n > 1 ∧ idir = 0 ∧ replaced = 0 then
      dirLoop p conv replaced rest (idir + 1) d
    else do
      let base := d.x
      let f1 := univar p.criter base row
      let g ← multLoop p f1 d.scale d.fbest 4 (1/10)
      if g.y2 < p.critlim then
        if g.y2 < d.fbest then some (Sum.inr (vadd base (vsmul g.x2 row), g.y2))
        else some (Sum.inr (base, d.fbest))
      else
        let br := powellBrent p conv f1 g
        let scale' := |br.xb| / (p.n : ℚ) + (1 - 1 / (p.n : ℚ)) * d.scale
        let x' := vadd base (vsmul br.xb row)
        let better := d.fbest - br.ret > d.delta
        dirLoop p conv replaced rest (idir + 1)
          { x := x', fbest := br.ret,
            delta := if better then d.fbest - br.ret else d.delta,
            idelta := if better then idir else d.idelta,
            scale := scale' }

/-- The direction-replacement branch of `powell` (MINIMIZE.CPP 525-568),
entered when both replacement tests pass: normalize the average direction
`p0`, minimize along it (`glob_min` + `brentmin`), and install it as row
`idelta`.  `Sum.inr` is the `break` on line 553. -/
def replaceStep (p : PParams) (conv : Nat) (d : DirState) (p0 : List ℚ)
    (direc : List (List ℚ)) (prev : ℚ) (iter : Nat) :
    Option (PowellState ⊕ (List ℚ × ℚ × HaltWhy)) := do
  let len := p.sqrtQ (vdot p0 p0)
  let p0u := p0.map (fun a => a / len)
  let base := d.x
  let f1 := univar p.criter base p0u
  let g ← multLoop p f1 d.scale d.fbest 4 (1/10)
  if g.y2 < p.critlim then
    if g.y2 < d.fbest then some (Sum.inr (vadd base (vsmul g.x2 p0u), g.y2, HaltWhy.replCrit))
    else some (Sum.inr (base, d.fbest, HaltWhy.replCrit))
  else
    let br := powellBrent p conv f1 g
    let scale' := |br.xb| / (p.n : ℚ) + (1 - 1 / (p.n : ℚ)) * d.scale
    let x' := vadd base (vsmul br.xb p0u)
    some (Sum.inl
      { x := x', fbest := br.ret, prev_best := prev, scale := scale',
        direc := direc.set d.idelta p0u, conv := conv, replaced := (d.idelta : Int),
        iter := iter + 1 })

/-- One iteration of `powell`'s outer loop (MINIMIZE.CPP 405-570): the cap,
`critlim` and convergence tests, the per-direction loop, the average-
direction probe, and the direction-replacement heuristic.  `Sum.inr` is a
loop exit carrying the final point, the returned value and the reason;
`none` is fuel exhaustion inside `glob_min`. -/
def powellIter (p : PParams) (s : PowellState) :
    Option (PowellState ⊕ (List ℚ × ℚ × HaltWhy)) :=
  if (s.iter : Int) ≥ p.maxits ∧ p.maxits > 0 then some (Sum.inr (s.x, s.fbest, HaltWhy.cap))
  else if s.fbest < p.critlim then some (Sum.inr (s.x, s.fbest, HaltWhy.crit))
  else
    let toler := if |s.prev_best| ≤ 1 then p.tol else p.tol * |s.prev_best|
    let conv' := if s.prev_best - s.fbest ≤ toler then s.conv + 1 else 0
    if s.prev_best - s.fbest ≤ toler ∧ 2 ≤ s.conv + 1 then
      some (Sum.inr (s.x, s.fbest, HaltWhy.conv))
    else do
      let prev' := s.fbest
      let f0 := s.fbest
      let dres ← dirLoop p conv' s.replaced s.direc 0
        { x := s.x, fbest := s.fbest, delta := -1, idelta := 0, scale := s.scale }
      match dres with
      | Sum.inr (x', fb') => some (Sum.inr (x', fb', HaltWhy.finishGoto))
      | Sum.inl d =>
        let p0 := vsub d.x s.x
        let probe := vadd d.x p0
        let fval := p.criter probe
        let ftest := d.fbest
        let fb1 := if fval < d.fbest then fval else d.fbest
        let x1v := if fval < d.fbest then probe else d.x
        if fval < f0 then
          let t0 := f0 - ftest - d.delta
          if 2 * (f0 - 2 * ftest + fval) * t0 ^ 2 < d.delta * (f0 - fval) ^ 2 then
            replaceStep p conv' { d with x := x1v, fbest := fb1 } p0 s.direc prev' s.iter
          else
            some (Sum.inl { x := x1v, fbest := fb1, prev_best := prev', scale := d.scale,
                            direc := s.direc, conv := conv', replaced := -1, iter := s.iter + 1 })
        else
          some (Sum.inl { x := x1v, fbest := fb1, prev_best := prev', scale := d.scale,
                          direc := s.direc, conv := conv', replaced := -1, iter := s.iter + 1 })

/-- `powell`'s outer loop with fuel: returns the final point, value, halt
reason, and the number of completed (non-halting) loop iterations. -/
def powellRun (p : PParams) : Nat → PowellState → Nat →
    Option (List ℚ × ℚ × HaltWhy × Nat)
  | 0, _, _ => none
  | fuel+1, s, cnt =>
    match powellIter p s with
    | none => none
    | some (Sum.inr (x, v, why)) => some (x, v, why, cnt)
    | some (Sum.inl s') => powellRun p fuel s' (cnt + 1)

/-- The identity direction matrix `powell` starts from (MINIMIZE.CPP
390-393): `direc[i*n+j] = (j == i) ? 1 : 0`. -/
def idMat (n : Nat) : List (List ℚ) :=
  (List.range n).map (fun i => (List.range n).map (fun j => if j = i then 1 else 0))

/-- The initial outer-loop state of `powell` (MINIMIZE.CPP 390-403):
identity direction matrix, `replaced = -1`, `prev_best = 1e60`,
`fbest = ystart`, `scale = 0.2`, counters zero. -/
def powellInit (n : Nat) (x : List ℚ) (ystart : ℚ) : PowellState :=
  { x := x, fbest := ystart, prev_best := 1e60, scale := 0.2,
    direc := idMat n, conv := 0, replaced := -1, iter := 0 }

/-- `powell` (MINIMIZE.CPP 358-574). -/
def powell (p : PParams) (x : List ℚ) (ystart : ℚ) :
    Option (List ℚ × ℚ × HaltWhy × Nat) :=
  powellRun p p.fuel (powellInit p.n x ystart) 0

/-! ## Concrete instances used by witnesses and counterexamples -/

/-- Witness iteration state for the golden-fallback rule: collinear data
with a zero parabolic denominator and an ordinary bracket. -/
def brentWitState : BrentState :=
  { x0 := 0, x1 := 1, x2 := 2, y0 := 0, y1 := 1, y2 := 2,
    xleft := -1, xright := 3, movement := 1, trial := 0 }

/-- Witness iteration state for the sentinel rule: equal values give a
zero parabolic denominator. -/
def brentWitStateC6 : BrentState :=
  { x0 := 0, x1 := 1, x2 := 2, y0 := 5, y1 := 5, y2 := 5,
    xleft := -1, xright := 3, movement := 1, trial := 0 }

/-- The state reached after two completed `brentmin` iterations of the run
with criterion `(x - m)^2`, `m = (1 - 0.3819660)^2 + 1/10`, bracket
`(0, 1, 2)` and `tol = 1/10`: its third iteration attempts a parabolic
step that is accepted but lands too close to the right endpoint. -/
def c4runState : BrentState :=
  (brentStates (fun x => (x - ((1 - 0.3819660)^2 + 1/10))^2) (-1) 1e-9 (1/10) 2 0
    (brentInit 0 1 2 ((1 - ((1 - 0.3819660)^2 + 1/10))^2))).getD default

/-- The state reached after one completed `brentmin` iteration of the run
with the constant criterion `1` on the astronomically wide bracket
`(-1e41, 0, 1e41)`: its second iteration meets a zero parabolic
denominator while the previous movement exceeds `2e40`. -/
def c6runState : BrentState :=
  (brentStates (fun _ => (1 : ℚ)) 0 1e-10 1e-5 1 0
    (brentInit (-1e41) 0 1e41 1)).getD default

/-- Witness `powell` configuration (constant criterion, one variable). -/
def pwParams : PParams :=
  { maxits := 3, critlim := 0, tol := 1/10, criter := fun _ => 5, n := 1,
    sqrtQ := fun q => q, fuel := 5 }

/-- Witness `powell` state whose iteration counter has reached the cap. -/
def pwState : PowellState :=
  { x := [2], fbest := 5, prev_best := 5, scale := 1/5, direc := [[1]],
    conv := 0, replaced := -1, iter := 7 }

/-- Witness configuration for the iteration-cap claim. -/
def pwParamsC10 : PParams :=
  { maxits := 3, critlim := 0, tol := 1/10, criter := fun _ => 9, n := 1,
    sqrtQ := fun q => q, fuel := 5 }

/-- Witness state for the iteration-cap claim. -/
def pwStateC10 : PowellState :=
  { x := [4], fbest := 9, prev_best := 9, scale := 1/5, direc := [[1]],
    conv := 0, replaced := -1, iter := 5 }

/-- Witness configuration for the strict `critlim` stop of `powell`. -/
def pwParamsC3 : PParams :=
  { maxits := 3, critlim := 1, tol := 1/10, criter := fun _ => -5, n := 1,
    sqrtQ := fun q => q, fuel := 2 }

/-- Witness state entering `powell`'s loop strictly below `critlim`. -/
def pwStateC3 : PowellState :=
  { x := [4], fbest := -5, prev_best := 0, scale := 1/5, direc := [[1]],
    conv := 0, replaced := -1, iter := 0 }

/-- Witness configuration for the direction-matrix frame claim: a
one-variable asymmetric criterion (steeper left of its minimum `1/25` than
right of it), so the extrapolated probe point genuinely improves on the
line-search result and the direction-replacement test passes. -/
def pwParamsC9 : PParams :=
  { maxits := 5, critlim := -1, tol := 1/2,
    criter := fun v => if v.getD 0 0 < 1/25 then (v.getD 0 0 - 1/25)^2
                       else (v.getD 0 0 - 1/25)^2 / 4,
    n := 1, sqrtQ := fun q => q, fuel := 8 }

/-- Witness state for the direction-matrix frame claim: entering the outer
loop at the origin; `scale = 7/10` makes the first 15-point scan hit the
criterion's minimum `1/25` exactly on a grid point. -/
def pwStateC9 : PowellState :=
  { x := [0], fbest := 1/625, prev_best := 1, scale := 7/10, direc := [[1]],
    conv := 0, replaced := -1, iter := 0 }

/-- The continuation state produced by one outer iteration of the witness
configuration: its per-direction loop improves along the single axis, the
probe improves again, the replacement test passes, and row `0` of the
direction matrix is overwritten with the normalized average direction. -/
def c9IterState : PowellState :=
  match powellIter pwParamsC9 pwStateC9 with
  | some (Sum.inl s') => s'
  | _ => default

/-! ## Scan-loop invariants of GLOB_MIN -/

/-- Invariant of `glob_min`'s scan loop after `i` points have been
processed: `*y2` is the criterion value at `*x2` and the running minimum of
all grid values seen; `ibest` is in range; when `turned_up` is set the
right neighbor `*y3` does not beat `*y2`; when the best point is not the
first one its left neighbor `*y1` does not beat it; when `turned_up` is
clear the best point is the most recent one; and `previous` does not beat
`*y2`. -/
def ScanInv (criter : ℚ → ℚ) (low rate : ℚ) (i : Nat) (s : ScanState) : Prop :=
  s.y2 = criter s.x2 ∧
  0 ≤ s.ibest ∧
  s.ibest < (i : Int) ∧
  (s.turned_up = true → s.y2 ≤ s.y3) ∧
  (0 < s.ibest → s.y2 ≤ s.y1) ∧
  (s.turned_up = false → s.ibest = (i : Int) - 1) ∧
  s.y2 ≤ s.previous ∧
  (∀ k : Nat, k < i → s.y2 ≤ criter (low + k * rate))

theorem scanInv_adv (criter : ℚ → ℚ) (low rate rate' : ℚ) (i : Nat) (s : ScanState) :
    ScanInv criter low rate i (scanAdvance rate' s) ↔ ScanInv criter low rate i s :=
  Iff.rfl

theorem earlyExit_adv (critlim rate : ℚ) (s : ScanState) :
    earlyExit critlim (scanAdvance rate s) ↔ earlyExit critlim s :=
  Iff.rfl

theorem scanAdvance_x (rate : ℚ) (s : ScanState) : (scanAdvance rate s).x = s.x + rate :=
  rfl

/-- The first scan pass (`i = 0`) from `glob_min`'s initial state. -/
theorem scanStep_zero (criter : ℚ → ℚ) (low y2i : ℚ) :
    scanStep criter false 0 (globInit low y2i) =
      { x := low, previous := criter low, ibest := 0, turned_up := false,
        x2 := low, y2 := criter low, y1 := 0, y3 := 0 } := by
  simp [scanStep, globInit]

/-- After the first pass the invariant holds with `i = 1`. -/
theorem scanInv_one (criter : ℚ → ℚ) (low rate y2i : ℚ) :
    ScanInv criter low rate 1 (scanStep criter false 0 (globInit low y2i)) := by
  rw [scanStep_zero]
  refine ⟨rfl, le_refl _, by norm_num, by simp, by simp, by simp, le_refl _, ?_⟩
  intro k hk
  interval_cases k
  simp

/-- One scan pass at index `i ≥ 1` preserves the invariant and does not
move `x`. -/
theorem scanStep_inv (criter : ℚ → ℚ) (low rate : ℚ) (i : Nat) (s : ScanState)
    (hx : s.x = low + i * rate) (hi : 1 ≤ i) (h : ScanInv criter low rate i s) :
    ScanInv criter low rate (i + 1) (scanStep criter false i s) ∧
      (scanStep criter false i s).x = s.x := by
  obtain ⟨h1, h2, h3, h4, h5, h6, h7, h8⟩ := h
  have hi0 : i ≠ 0 := by omega
  unfold scanStep
  simp only [hi0, ne_eq, not_false_iff, true_or, if_true, false_or, Bool.not_false,
    or_true, if_pos]
  split_ifs with hlt hnb
  · -- improvement: new best at index i
    unfold ScanInv
    dsimp only
    refine ⟨⟨rfl, by omega, by omega, by simp, fun _ => le_trans (le_of_lt hlt) h7,
      fun _ => by omega, le_refl _, ?_⟩, rfl⟩
    intro k hk
    rcases Nat.lt_succ_iff_lt_or_eq.mp hk with hk' | hk'
    · exact le_trans (le_of_lt hlt) (h8 k hk')
    · subst hk'
      rw [hx]
  · -- right neighbor found: turned_up set
    push_neg at hlt
    unfold ScanInv
    dsimp only
    refine ⟨⟨h1, h2, by omega, fun _ => hlt, h5, by simp, hlt, ?_⟩, rfl⟩
    intro k hk
    rcases Nat.lt_succ_iff_lt_or_eq.mp hk with hk' | hk'
    · exact h8 k hk'
    · subst hk'
      rw [hx] at hlt
      exact hlt
  · -- no improvement, not the right neighbor
    push_neg at hlt
    have hturn : s.turned_up = true := by
      by_contra hf
      have := h6 (by simpa using hf)
      omega
    unfold ScanInv
    dsimp only
    refine ⟨⟨h1, h2, by omega, h4, h5, fun hf => absurd (hturn ▸ hf) (by simp), hlt, ?_⟩, rfl⟩
    intro k hk
    rcases Nat.lt_succ_iff_lt_or_eq.mp hk with hk' | hk'
    · exact h8 k hk'
    · subst hk'
      rw [hx] at hlt
      exact hlt

/-- The scan loop preserves the invariant; the count of processed points is
in range, and stopping before the last remaining point means the early-exit
condition holds at the returned state. -/
theorem scanAux_inv (criter : ℚ → ℚ) (low rate critlim : ℚ) :
    ∀ (rem i : Nat) (s : ScanState), 1 ≤ i → s.x = low + i * rate →
      ScanInv criter low rate i s →
      ScanInv criter low rate (scanAux criter critlim rate false rem i s).2
          (scanAux criter critlim rate false rem i s).1 ∧
        i ≤ (scanAux criter critlim rate false rem i s).2 ∧
        (scanAux criter critlim rate false rem i s).2 ≤ i + rem ∧
        ((scanAux criter critlim rate false rem i s).2 < i + rem →
          earlyExit critlim (scanAux criter critlim rate false rem i s).1)
  | 0, i, s => by
    intro hi hx h
    simpa [scanAux] using h
  | rem+1, i, s => by
    intro hi hx h
    obtain ⟨hstep, hxeq⟩ := scanStep_inv criter low rate i s hx hi h
    unfold scanAux
    dsimp only
    split_ifs with hee
    · exact ⟨hstep, by omega, by omega, fun _ => hee⟩
    · have hx' : (scanAdvance rate (scanStep criter false i s)).x = low + (i+1 : Nat) * rate := by
        rw [scanAdvance_x, hxeq, hx]
        push_cast
        ring
      have h' : ScanInv criter low rate (i+1) (scanAdvance rate (scanStep criter false i s)) :=
        (scanInv_adv criter low rate rate (i+1) _).mpr hstep
      obtain ⟨a, b, c, d⟩ := scanAux_inv criter low rate critlim rem (i+1) _ (by omega) hx' h'
      exact ⟨a, by omega, by omega, fun hlt => d (by omega)⟩

/-- Unfolding the scan loop at its first point: the early-exit test cannot
fire at `i = 0` (since `ibest = 0` there), so the loop always continues
past the first point. -/
theorem scanAux_zero (criter : ℚ → ℚ) (critlim rate low y2i : ℚ) (rem : Nat) :
    scanAux criter critlim rate false (rem+1) 0 (globInit low y2i) =
      scanAux criter critlim rate false rem 1
        { x := low + rate, previous := criter low, ibest := 0, turned_up := false,
          x2 := low, y2 := criter low, y1 := 0, y3 := 0 } := by
  conv_lhs => rw [scanAux]
  rw [scanStep_zero]
  rw [if_neg (by simp [earlyExit])]
  norm_num [scanAdvance]

/-- The full-scan facts used downstream, from `glob_min`'s entry state:
invariant at the final state, `1 ≤ count ≤ npts`, and early stop implies
the exit condition. -/
theorem scanAux_main (criter : ℚ → ℚ) (low rate critlim y2i : ℚ) (np : Nat) (hnp : 1 ≤ np) :
    ScanInv criter low rate (scanAux criter critlim rate false np 0 (globInit low y2i)).2
        (scanAux criter critlim rate false np 0 (globInit low y2i)).1 ∧
      1 ≤ (scanAux criter critlim rate false np 0 (globInit low y2i)).2 ∧
      (scanAux criter critlim rate false np 0 (globInit low y2i)).2 ≤ np ∧
      ((scanAux criter critlim rate false np 0 (globInit low y2i)).2 < np →
        earlyExit critlim (scanAux criter critlim rate false np 0 (globInit low y2i)).1) := by
  obtain ⟨rem, rfl⟩ : ∃ rem, np = rem + 1 := ⟨np - 1, by omega⟩
  rw [scanAux_zero]
  have hx' : ({ x := low + rate, previous := criter low, ibest := 0, turned_up := false,
                x2 := low, y2 := criter low, y1 := 0, y3 := 0 } : ScanState).x
      = low + (1 : Nat) * rate := by
    dsimp only
    push_cast
    ring
  have h1 : ScanInv criter low rate 1
      ({ x := low + rate, previous := criter low, ibest := 0, turned_up := false,
         x2 := low, y2 := criter low, y1 := 0, y3 := 0 } : ScanState) := by
    have := scanInv_one criter low rate y2i
    rw [scanStep_zero] at this
    exact this
  obtain ⟨a, b, c, d⟩ := scanAux_inv criter low rate critlim rem 1 _ (le_refl 1) hx' h1
  exact ⟨a, by omega, by omega, fun hlt => d (by omega)⟩

/-! ## Boundary-extension invariants of GLOB_MIN -/

/-- If the rightward extension starts with `y1` no better than `y2`, any
normal completion returns a triple whose center beats both neighbors. -/
theorem extendRight_ok (criter : ℚ → ℚ) :
    ∀ (fuel : Nat) (rate : ℚ) (t : GTriple), t.y2 ≤ t.y1 → t.y2 = criter t.x2 →
      ∀ r, extendRight criter fuel rate t = some r → r.y2 ≤ r.y1 ∧ r.y2 ≤ r.y3
  | 0, rate, t => by
    intro _ _ r hr
    simp [extendRight] at hr
  | fuel+1, rate, t => by
    intro h1 h2 r hr
    unfold extendRight at hr
    dsimp only at hr
    split_ifs at hr with hgt hflat
    · injection hr with hr'
      subst hr'
      exact ⟨h1, le_of_lt hgt⟩
    · injection hr with hr'
      subst hr'
      exact ⟨hflat.1.ge, hflat.2.le⟩
    · push_neg at hgt
      exact extendRight_ok criter fuel (2*rate) _ hgt rfl r hr

/-- The degenerate rightward extension with `rate = 0` and `x3 = x2`
(the `npts = 1` entry): the function-increase exit can never fire, so any
normal completion exits flat. -/
theorem extendRight_zero (criter : ℚ → ℚ) :
    ∀ (fuel : Nat) (t : GTriple), t.x3 = t.x2 → t.y2 = criter t.x2 →
      ∀ r, extendRight criter fuel 0 t = some r → r.y2 ≤ r.y1 ∧ r.y2 ≤ r.y3
  | 0, t => by
    intro _ _ r hr
    simp [extendRight] at hr
  | fuel+1, t => by
    intro hx h2 r hr
    unfold extendRight at hr
    dsimp only at hr
    have hy : criter t.x3 = t.y2 := by rw [hx, ← h2]
    rw [hy] at hr
    split_ifs at hr with hgt hflat
    · exact absurd hgt (lt_irrefl _)
    · injection hr with hr'
      subst hr'
      exact ⟨hflat.1.ge, hflat.2.le⟩
    · refine extendRight_ok criter fuel (2*0) _ ?_ ?_ r hr
      · simp
      · dsimp only
        rw [hx, ← h2]

/-- If the leftward extension starts with `y3` no better than `y2`, any
normal completion returns a triple whose center beats both neighbors. -/
theorem extendLeft_ok (criter : ℚ → ℚ) :
    ∀ (fuel : Nat) (rate : ℚ) (t : GTriple), t.y2 ≤ t.y3 → t.y2 = criter t.x2 →
      ∀ r, extendLeft criter fuel rate t = some r → r.y2 ≤ r.y1 ∧ r.y2 ≤ r.y3
  | 0, rate, t => by
    intro _ _ r hr
    simp [extendLeft] at hr
  | fuel+1, rate, t => by
    intro h3 h2 r hr
    unfold extendLeft at hr
    dsimp only at hr
    split_ifs at hr with hgt hflat
    · injection hr with hr'
      subst hr'
      exact ⟨le_of_lt hgt, h3⟩
    · injection hr with hr'
      subst hr'
      exact ⟨hflat.1.ge, hflat.1.ge.trans (le_of_eq hflat.1) |>.trans hflat.2.le⟩
    · push_neg at hgt
      exact extendLeft_ok criter fuel (2*rate) _ hgt rfl r hr

/-- The rightward extension can only lower the center value, and keeps the
center value equal to the criterion at the center abscissa. -/
theorem extendRight_le (criter : ℚ → ℚ) :
    ∀ (fuel : Nat) (rate : ℚ) (t : GTriple), t.y2 = criter t.x2 →
      ∀ r, extendRight criter fuel rate t = some r → r.y2 ≤ t.y2 ∧ r.y2 = criter r.x2
  | 0, rate, t => by
    intro _ r hr
    simp [extendRight] at hr
  | fuel+1, rate, t => by
    intro h2 r hr
    unfold extendRight at hr
    dsimp only at hr
    split_ifs at hr with hgt hflat
    · injection hr with hr'
      subst hr'
      exact ⟨le_refl _, h2⟩
    · injection hr with hr'
      subst hr'
      exact ⟨le_refl _, h2⟩
    · push_neg at hgt
      obtain ⟨ha, hb⟩ := extendRight_le criter fuel (2*rate) _ rfl r hr
      exact ⟨ha.trans hgt, hb⟩

/-- The leftward extension can only lower the center value, and keeps the
center value equal to the criterion at the center abscissa. -/
theorem extendLeft_le (criter : ℚ → ℚ) :
    ∀ (fuel : Nat) (rate : ℚ) (t : GTriple), t.y2 = criter t.x2 →
      ∀ r, extendLeft criter fuel rate t = some r → r.y2 ≤ t.y2 ∧ r.y2 = criter r.x2
  | 0, rate, t => by
    intro _ r hr
    simp [extendLeft] at hr
  | fuel+1, rate, t => by
    intro h2 r hr
    unfold extendLeft at hr
    dsimp only at hr
    split_ifs at hr with hgt hflat
    · injection hr with hr'
      subst hr'
      exact ⟨le_refl _, h2⟩
    · injection hr with hr'
      subst hr'
      exact ⟨le_refl _, h2⟩
    · push_neg at hgt
      obtain ⟨ha, hb⟩ := extendLeft_le criter fuel (2*rate) _ rfl r hr
      exact ⟨ha.trans hgt, hb⟩

/-- For `npts ≥ 1` the caller-supplied `*y2` is not consulted:
`know_first` is false. -/
theorem glob_min_pos_eq (fuel : Nat) (criter : ℚ → ℚ) (low high critlim y2i : ℚ)
    (npts : Int) (h : 1 ≤ npts) :
    glob_min fuel criter low high npts critlim y2i =
      (let rate := globRate low high npts.natAbs
       let s := (scanAux criter critlim rate false npts.natAbs 0 (globInit low y2i)).1
       let t : GTriple := { x1 := s.x2 - rate, y1 := s.y1, x2 := s.x2, y2 := s.y2,
                            x3 := s.x2 + rate, y3 := s.y3 }
       if s.turned_up = false then extendRight criter fuel rate t
       else if s.ibest = 0 then extendLeft criter fuel rate t
       else some t) := by
  simp only [glob_min, decide_eq_false (show ¬ npts < 0 by omega)]

/-- C1 core: whenever `glob_min` completes normally with `npts ≥ 1`, the
returned triple has its center value no greater than both neighbor
values. -/
theorem glob_min_bracket (fuel : Nat) (criter : ℚ → ℚ) (low high critlim y2i : ℚ)
    (npts : Int) (h : 1 ≤ npts) (r : GTriple)
    (hr : glob_min fuel criter low high npts critlim y2i = some r) :
    r.y2 ≤ r.y1 ∧ r.y2 ≤ r.y3 := by
  rw [glob_min_pos_eq fuel criter low high critlim y2i npts h] at hr
  dsimp only at hr
  set rate := globRate low high npts.natAbs with hrate
  set sc := scanAux criter critlim rate false npts.natAbs 0 (globInit low y2i) with hsc
  have hnp : 1 ≤ npts.natAbs := by omega
  obtain ⟨⟨i1, i2, i3, i4, i5, i6, i7, i8⟩, e1, e2, e3⟩ :=
    scanAux_main criter low rate critlim y2i npts.natAbs hnp
  rw [← hsc] at i1 i2 i3 i4 i5 i6 i7 i8 e1 e2 e3
  split_ifs at hr with hturn hib
  · -- not turned up: extend right
    have hib' : sc.1.ibest = (sc.2 : Int) - 1 := i6 hturn
    by_cases he : 2 ≤ sc.2
    · -- the best point has a left neighbor from the scan
      have : 0 < sc.1.ibest := by omega
      exact extendRight_ok criter fuel rate _ (i5 this) i1 r hr
    · -- only one point was scanned: npts = 1 and rate = 0
      have he1 : sc.2 = 1 := by omega
      have hnp1 : npts.natAbs = 1 := by
        by_contra hne
        have hlt : sc.2 < npts.natAbs := by omega
        have := e3 hlt
        rw [this.2.2] at hturn
        exact absurd hturn (by simp)
      have hrate0 : rate = 0 := by
        rw [hrate, hnp1, globRate]
        norm_num
      rw [hrate0] at hr
      exact extendRight_zero criter fuel _ (by simp) i1 r hr
  · -- turned up with the best at the first point: extend left
    exact extendLeft_ok criter fuel rate _ (i4 (by simpa using hturn)) i1 r hr
  · -- turned up with an interior best point: return directly
    injection hr with hr'
    subst hr'
    have hpos : 0 < sc.1.ibest := lt_of_le_of_ne i2 (Ne.symm hib)
    exact ⟨i5 hpos, i4 (by simpa using hturn)⟩

/-- The center value returned by `glob_min` (for `npts ≥ 1`) is the
criterion value at the center abscissa, and either the scan stopped early
with `y2 ≤ critlim` or `y2` is at or below every grid value
`criter (low + k * rate)`. -/
theorem glob_min_y2_le (fuel : Nat) (criter : ℚ → ℚ) (low high critlim y2i : ℚ)
    (npts : Int) (h : 1 ≤ npts) (r : GTriple)
    (hr : glob_min fuel criter low high npts critlim y2i = some r) :
    r.y2 = criter r.x2 ∧
      (r.y2 ≤ critlim ∨
        ∀ k : Nat, k < npts.natAbs → r.y2 ≤ criter (low + k * globRate low high npts.natAbs)) := by
  rw [glob_min_pos_eq fuel criter low high critlim y2i npts h] at hr
  dsimp only at hr
  set rate := globRate low high npts.natAbs with hrate
  set sc := scanAux criter critlim rate false npts.natAbs 0 (globInit low y2i) with hsc
  have hnp : 1 ≤ npts.natAbs := by omega
  obtain ⟨⟨i1, i2, i3, i4, i5, i6, i7, i8⟩, e1, e2, e3⟩ :=
    scanAux_main criter low rate critlim y2i npts.natAbs hnp
  rw [← hsc] at i1 i2 i3 i4 i5 i6 i7 i8 e1 e2 e3
  have hbase : sc.1.y2 ≤ critlim ∨
      ∀ k : Nat, k < npts.natAbs → sc.1.y2 ≤ criter (low + k * rate) := by
    by_cases hfull : sc.2 < npts.natAbs
    · exact Or.inl (e3 hfull).1
    · have : sc.2 = npts.natAbs := by omega
      exact Or.inr (fun k hk => i8 k (this ▸ hk))
  have step : ∀ r' : GTriple, r'.y2 ≤ sc.1.y2 → r'.y2 = criter r'.x2 →
      r'.y2 = criter r'.x2 ∧
        (r'.y2 ≤ critlim ∨
          ∀ k : Nat, k < npts.natAbs → r'.y2 ≤ criter (low + k * rate)) := by
    intro r' hle heq
    refine ⟨heq, ?_⟩
    rcases hbase with hc | hg
    · exact Or.inl (hle.trans hc)
    · exact Or.inr (fun k hk => hle.trans (hg k hk))
  split_ifs at hr with hturn hib
  · obtain ⟨ha, hb⟩ := extendRight_le criter fuel rate _ i1 r hr
    exact step r ha hb
  · obtain ⟨ha, hb⟩ := extendLeft_le criter fuel rate _ i1 r hr
    exact step r ha hb
  · injection hr with hr'
    subst hr'
    exact step _ (le_refl _) i1

/-! ## The early exit of the scan, and flat functions -/

theorem scanNB_succ (criter : ℚ → ℚ) (rate : ℚ) (kf : Bool) (m i : Nat) (s : ScanState) :
    scanNB criter rate kf (m+1) i s =
      scanNB criter rate kf m (i+1) (scanAdvance rate (scanStep criter kf i s)) := rfl

theorem scanNB_zero (criter : ℚ → ℚ) (rate : ℚ) (kf : Bool) (i : Nat) (s : ScanState) :
    scanNB criter rate kf 0 i s = s := rfl

/-- The scan loop stops before exhausting its remaining points exactly when
some proper prefix of the remaining breakless scan ends in a state
satisfying the early-exit condition. -/
theorem scanAux_early_iff (criter : ℚ → ℚ) (critlim rate : ℚ) (kf : Bool) :
    ∀ (rem i : Nat) (s : ScanState),
      (scanAux criter critlim rate kf rem i s).2 < i + rem ↔
        ∃ m, 0 < m ∧ m < rem ∧ earlyExit critlim (scanNB criter rate kf m i s)
  | 0, i, s => by
    constructor
    · intro hlt
      simp [scanAux] at hlt
    · rintro ⟨m, hm0, hmlt, -⟩
      omega
  | rem+1, i, s => by
    unfold scanAux
    dsimp only
    split_ifs with hee
    · constructor
      · intro hlt
        refine ⟨1, one_pos, by omega, ?_⟩
        rw [scanNB_succ, scanNB_zero]
        exact (earlyExit_adv critlim rate _).mpr hee
      · rintro ⟨m, hm0, hmlt, -⟩
        omega
    · have IH := scanAux_early_iff criter critlim rate kf rem (i+1)
        (scanAdvance rate (scanStep criter kf i s))
      constructor
      · intro hlt
        obtain ⟨m', a, b, c⟩ := IH.mp (by omega)
        exact ⟨m'+1, by omega, by omega, by rw [scanNB_succ]; exact c⟩
      · rintro ⟨m, hm0, hmlt, hex⟩
        obtain ⟨m', rfl⟩ : ∃ m', m = m'+1 := ⟨m-1, by omega⟩
        rw [scanNB_succ] at hex
        have hm'0 : 0 < m' := by
          rcases Nat.eq_zero_or_pos m' with h0 | hpos
          · subst h0
            rw [scanNB_zero] at hex
            exact absurd ((earlyExit_adv critlim rate _).mp hex) hee
          · exact hpos
        have := IH.mpr ⟨m', hm'0, by omega, hex⟩
        omega

/-- For a constant criterion, once the scan has seen the first two points
(`ibest = 0`, `turned_up` set, `y2 = y3 = c`), the rest of the scan changes
none of the output cells and never exits early. -/
theorem scanAux_const_stable (c critlim rate : ℚ) :
    ∀ (rem i : Nat) (s : ScanState), 1 ≤ i → s.ibest = 0 → s.turned_up = true →
      s.y2 = c → s.y3 = c →
      (scanAux (fun _ => c) critlim rate false rem i s).1.ibest = 0 ∧
        (scanAux (fun _ => c) critlim rate false rem i s).1.turned_up = true ∧
        (scanAux (fun _ => c) critlim rate false rem i s).1.y2 = c ∧
        (scanAux (fun _ => c) critlim rate false rem i s).1.y3 = c ∧
        (scanAux (fun _ => c) critlim rate false rem i s).1.y1 = s.y1 ∧
        (scanAux (fun _ => c) critlim rate false rem i s).1.x2 = s.x2
  | 0, i, s => by
    intro hi h1 h2 h3 h4
    exact ⟨h1, h2, h3, h4, rfl, rfl⟩
  | rem+1, i, s => by
    intro hi h1 h2 h3 h4
    have hi0 : i ≠ 0 := by omega
    unfold scanAux
    dsimp only
    have hfields : (scanStep (fun _ => c) false i s).ibest = 0 ∧
        (scanStep (fun _ => c) false i s).turned_up = true ∧
        (scanStep (fun _ => c) false i s).y2 = c ∧
        (scanStep (fun _ => c) false i s).y3 = c ∧
        (scanStep (fun _ => c) false i s).y1 = s.y1 ∧
        (scanStep (fun _ => c) false i s).x2 = s.x2 := by
      unfold scanStep
      dsimp only
      rw [if_pos (Or.inl hi0)]
      rw [if_neg (by rintro (h0 | hlt); exact hi0 h0; rw [h3] at hlt; exact absurd hlt (lt_irrefl c))]
      split_ifs with hb
      · exact ⟨h1, rfl, h3, rfl, rfl, rfl⟩
      · exact ⟨h1, h2, h3, h4, rfl, rfl⟩
    rw [if_neg (by rintro ⟨-, hb, -⟩; rw [hfields.1] at hb; exact absurd hb (lt_irrefl 0))]
    obtain ⟨a1, a2, a3, a4, a5, a6⟩ := scanAux_const_stable c critlim rate rem (i+1)
      (scanAdvance rate (scanStep (fun _ => c) false i s)) (by omega)
      hfields.1 hfields.2.1 hfields.2.2.1 hfields.2.2.2.1
    exact ⟨a1, a2, a3, a4, a5.trans hfields.2.2.2.2.1, a6.trans hfields.2.2.2.2.2⟩

/-- One scan pass at `i = 1` for a constant criterion from the
post-first-point state: the second point does not improve, so it becomes
the right neighbor and sets `turned_up`. -/
theorem scanStep_const_one (c low rate : ℚ) :
    scanStep (fun _ => c) false 1
        { x := low + rate, previous := c, ibest := 0, turned_up := false,
          x2 := low, y2 := c, y1 := 0, y3 := 0 } =
      { x := low + rate, previous := c, ibest := 0, turned_up := true,
        x2 := low, y2 := c, y1 := 0, y3 := c } := by
  unfold scanStep
  norm_num

/-- C7 core (Bracketer half): for a constant criterion, `glob_min`
completes normally with boundary-extension fuel `2`: each extension loop
exits on its flatness check within two rounds. -/
theorem glob_min_const_some (c low high critlim y2i : ℚ) (npts : Int) (h : 1 ≤ npts) :
    (glob_min 2 (fun _ => c) low high npts critlim y2i).isSome = true := by
  rw [glob_min_pos_eq 2 (fun _ => c) low high critlim y2i npts h]
  dsimp only
  set rate := globRate low high npts.natAbs with hrate
  have hnp : 1 ≤ npts.natAbs := by omega
  rcases Nat.lt_or_ge npts.natAbs 2 with hlt | hge
  · -- npts = 1 : one scanned point, rightward extension with rate = 0
    have hnp1 : npts.natAbs = 1 := by omega
    have hrate0 : rate = 0 := by
      rw [hrate, hnp1, globRate]
      norm_num
    rw [hnp1, scanAux_zero]
    dsimp only [scanAux]
    rw [hrate0]
    rw [if_pos rfl]
    unfold extendRight
    dsimp only
    split_ifs with hgt hflat
    · simp
    · simp
    · unfold extendRight
      dsimp only
      split_ifs with hflat2
      · simp
      · exact absurd ⟨rfl, rfl⟩ hflat2
  · -- npts ≥ 2 : turned_up is set at the second point, leftward extension
    obtain ⟨rem, hrem⟩ : ∃ rem, npts.natAbs = rem + 2 := ⟨npts.natAbs - 2, by omega⟩
    rw [hrem, scanAux_zero]
    unfold scanAux
    dsimp only
    rw [scanStep_const_one c low rate]
    rw [if_neg (show ¬ earlyExit critlim
        { x := low + rate, previous := c, ibest := 0, turned_up := true,
          x2 := low, y2 := c, y1 := 0, y3 := c } from
      fun hex => absurd hex.2.1 (lt_irrefl 0))]
    obtain ⟨a1, a2, a3, a4, a5, a6⟩ := scanAux_const_stable c critlim rate rem (1+1)
      (scanAdvance rate
        { x := low + rate, previous := c, ibest := 0, turned_up := true,
          x2 := low, y2 := c, y1 := 0, y3 := c }) (by omega) rfl rfl rfl rfl
    rw [if_neg (by rw [a2]; simp), if_pos a1]
    unfold extendLeft
    dsimp only
    rw [if_neg (by rw [a3]; exact lt_irrefl c),
      if_pos (by rw [a3, a4]; exact ⟨rfl, rfl⟩)]
    simp

/-- C7 core (LineRefiner half): `brentmin`'s loop performs at most its
iteration cap. -/
theorem brentLoop_le (criter : ℚ → ℚ) (critlim eps tol : ℚ) :
    ∀ (rem iter : Nat) (s : BrentState),
      (brentLoop criter critlim eps tol rem iter s).2 ≤ rem
  | 0, iter, s => le_refl 0
  | rem+1, iter, s => by
    unfold brentLoop
    cases brentStep criter critlim eps tol iter s with
    | none => simp
    | some s' =>
      dsimp only
      have := brentLoop_le criter critlim eps tol rem (iter+1) s'
      omega

/-! ## BRENTMIN invariants -/

/-- The re-ranking step either installs the new point as best (only when it
does not lose to the old best) or keeps the old best point and value. -/
theorem brentRank_y0x0 (s : BrentState) (tx ty m t : ℚ) :
    ((brentRank s tx ty m t).y0 = ty ∧ ty ≤ s.y0 ∧ (brentRank s tx ty m t).x0 = tx) ∨
      ((brentRank s tx ty m t).y0 = s.y0 ∧ (brentRank s tx ty m t).x0 = s.x0) := by
  unfold brentRank
  split_ifs <;>
    first
      | exact Or.inl ⟨rfl, by assumption, rfl⟩
      | exact Or.inr ⟨rfl, rfl⟩

/-- One completed `brentmin` iteration can only keep or lower `y0`, and
keeps `y0` equal to the criterion value at `x0`. -/
theorem brentStep_y0 (criter : ℚ → ℚ) (critlim eps tol : ℚ) (iter : Nat)
    (s s' : BrentState) (h : brentStep criter critlim eps tol iter s = some s') :
    s'.y0 ≤ s.y0 ∧ (s.y0 = criter s.x0 → s'.y0 = criter s'.x0) := by
  unfold brentStep at h
  split_ifs at h
  dsimp only at h
  injection h with h'
  subst h'
  rcases brentRank_y0x0 s (brentThisX tol s) (criter (brentThisX tol s))
      (brentChoose tol s).2 (brentChoose tol s).1 with ⟨e1, e2, e3⟩ | ⟨e1, e3⟩
  · exact ⟨by rw [e1]; exact e2, fun _ => by rw [e1, e3]⟩
  · exact ⟨le_of_eq e1, fun hy => by rw [e1, e3, hy]⟩

/-- `brentmin`'s loop can only keep or lower `y0`, and preserves
`y0 = criter x0`. -/
theorem brentLoop_y0 (criter : ℚ → ℚ) (critlim eps tol : ℚ) :
    ∀ (rem iter : Nat) (s : BrentState),
      (brentLoop criter critlim eps tol rem iter s).1.y0 ≤ s.y0 ∧
        (s.y0 = criter s.x0 →
          (brentLoop criter critlim eps tol rem iter s).1.y0 =
            criter (brentLoop criter critlim eps tol rem iter s).1.x0)
  | 0, iter, s => ⟨le_refl _, fun hy => hy⟩
  | rem+1, iter, s => by
    unfold brentLoop
    cases hs : brentStep criter critlim eps tol iter s with
    | none => exact ⟨le_refl _, fun hy => hy⟩
    | some s' =>
      dsimp only
      obtain ⟨a1, a2⟩ := brentStep_y0 criter critlim eps tol iter s s' hs
      obtain ⟨b1, b2⟩ := brentLoop_y0 criter critlim eps tol rem (iter+1) s'
      exact ⟨b1.trans a1, fun hy => b2 (a2 hy)⟩

/-- C3 amended, `brentmin` half: the `critlim` stop is strict.  When the
input value is strictly below `critlim` the loop stops at its very first
check, returning the inputs untouched with zero completed iterations. -/
theorem brentmin_strict_stop (itmax : Nat) (critlim eps tol : ℚ) (criter : ℚ → ℚ)
    (xa xb xc y : ℚ) (h : y < critlim) :
    brentmin itmax critlim eps tol criter xa xb xc y =
      { xa := xa, xb := xb, xc := xc, ret := y, iters := 0 } := by
  cases itmax with
  | zero => rfl
  | succ n =>
    unfold brentmin brentLoop brentStep
    rw [if_pos (show (brentInit xa xb xc y).y0 < critlim from h)]
    rfl

/-- The returned best value of `brentmin` never exceeds the input value
`y`, and equals the criterion at the returned abscissa when the input pair
was consistent. -/
theorem brentmin_ret (itmax : Nat) (critlim eps tol : ℚ) (criter : ℚ → ℚ)
    (xa xb xc y : ℚ) :
    (brentmin itmax critlim eps tol criter xa xb xc y).ret ≤ y ∧
      (y = criter xb →
        (brentmin itmax critlim eps tol criter xa xb xc y).ret =
          criter (brentmin itmax critlim eps tol criter xa xb xc y).xb) := by
  obtain ⟨a, b⟩ := brentLoop_y0 criter critlim eps tol itmax 0 (brentInit xa xb xc y)
  exact ⟨a, fun hy => b hy⟩

/-- Bounds of a golden-section trial point: stepping the golden fraction of
the way toward the far end of the larger half stays inside the bracket. -/
theorem golden_in_bounds (s : BrentState) (hl : s.xleft ≤ s.x0) (hr : s.x0 ≤ s.xright) :
    s.xleft ≤ s.x0 + 0.3819660 * goldenMove s ∧
      s.x0 + 0.3819660 * goldenMove s ≤ s.xright := by
  unfold goldenMove
  split_ifs with hm
  · constructor <;> nlinarith [hr, hl]
  · constructor <;> nlinarith [hr, hl]

/-- Case characterization of the step choice: either the golden-section
step is taken, or the parabolic point is strictly interior and is used as
is (not close to an endpoint), or it is strictly interior but close to an
endpoint and the trial is `±small_step`. -/
theorem brentChoose_spec (tol : ℚ) (s : BrentState) :
    (brentChoose tol s).1 = 0.3819660 * goldenMove s ∨
      (s.xleft < parTrial s + s.x0 ∧ parTrial s + s.x0 < s.xright ∧
        ¬(parTrial s + s.x0 - s.xleft < 2 * smallStep tol s ∨
            s.xright - (parTrial s + s.x0) < 2 * smallStep tol s) ∧
        (brentChoose tol s).1 = parTrial s) ∨
      (s.xleft < parTrial s + s.x0 ∧ parTrial s + s.x0 < s.xright ∧
        (parTrial s + s.x0 - s.xleft < 2 * smallStep tol s ∨
          s.xright - (parTrial s + s.x0) < 2 * smallStep tol s) ∧
        (brentChoose tol s).1 =
          (if s.x0 < xmidOf s then smallStep tol s else -(smallStep tol s))) := by
  unfold brentChoose
  by_cases hmv : |s.movement| > smallStep tol s
  · rw [if_pos hmv]
    dsimp only
    by_cases hacc : 2 * |parTrial s| < |s.movement| ∧
        parTrial s + s.x0 > s.xleft ∧ parTrial s + s.x0 < s.xright
    · rw [if_pos hacc]
      by_cases hclose : parTrial s + s.x0 - s.xleft < 2 * smallStep tol s ∨
          s.xright - (parTrial s + s.x0) < 2 * smallStep tol s
      · rw [if_pos hclose]
        exact Or.inr (Or.inr ⟨hacc.2.1, hacc.2.2, hclose, rfl⟩)
      · rw [if_neg hclose]
        exact Or.inr (Or.inl ⟨hacc.2.1, hacc.2.2, hclose, rfl⟩)
    · rw [if_neg hacc]
      exact Or.inl rfl
  · rw [if_neg hmv]
    exact Or.inl rfl

/-- Case characterization of the evaluated point: the raw trial step when
it is at least `small_step` in magnitude, else `±small_step` following the
trial's sign. -/
theorem brentThisX_cases (tol : ℚ) (s : BrentState) :
    (|(brentChoose tol s).1| ≥ smallStep tol s ∧
        brentThisX tol s = s.x0 + (brentChoose tol s).1) ∨
      (|(brentChoose tol s).1| < smallStep tol s ∧ 0 < (brentChoose tol s).1 ∧
        brentThisX tol s = s.x0 + smallStep tol s) ∨
      (|(brentChoose tol s).1| < smallStep tol s ∧ (brentChoose tol s).1 ≤ 0 ∧
        brentThisX tol s = s.x0 - smallStep tol s) := by
  unfold brentThisX
  dsimp only
  by_cases h1 : |(brentChoose tol s).1| ≥ smallStep tol s
  · rw [if_pos h1]
    exact Or.inl ⟨h1, rfl⟩
  · rw [if_neg h1]
    push_neg at h1
    by_cases h2 : (brentChoose tol s).1 > 0
    · rw [if_pos h2]
      exact Or.inr (Or.inl ⟨h1, h2, rfl⟩)
    · rw [if_neg h2]
      push_neg at h2
      exact Or.inr (Or.inr ⟨h1, h2, rfl⟩)

/-- As long as the midpoint-convergence test has not fired, the point
evaluated by a `brentmin` iteration lies inside the current bracket. -/
theorem brentThisX_bounds (tol : ℚ) (s : BrentState)
    (hl : s.xleft ≤ s.x0) (hr : s.x0 ≤ s.xright)
    (hnb : ¬ |s.x0 - xmidOf s| ≤ 2 * smallStep tol s - (s.xright - s.xleft) / 2) :
    s.xleft ≤ brentThisX tol s ∧ brentThisX tol s ≤ s.xright := by
  push_neg at hnb
  have hxm' : xmidOf s = (s.xleft + s.xright) / 2 := rfl
  have habs : |s.x0 - xmidOf s| ≤ (s.xright - s.xleft) / 2 := by
    rw [abs_le, hxm']
    constructor <;> linarith
  have hssW : smallStep tol s < (s.xright - s.xleft) / 2 := by linarith
  have hg1 : (0 : ℚ) < 0.3819660 := by norm_num
  have hg2 : (0.3819660 : ℚ) < 1 := by norm_num
  rcases brentThisX_cases tol s with ⟨hA, hx⟩ | ⟨hA, hsgn, hx⟩ | ⟨hA, hsgn, hx⟩ <;>
    rcases brentChoose_spec tol s with hG | ⟨hi1, hi2, hcl, hE⟩ | ⟨hi1, hi2, hcl, hE⟩ <;>
    rw [hx]
  · -- full step, golden
    rw [hG]
    exact golden_in_bounds s hl hr
  · -- full step, parabolic interior not close
    rw [hE]
    exact ⟨by linarith, by linarith⟩
  · -- full step, too close: trial = ±small_step
    have hss0 : (0 : ℚ) < smallStep tol s := by
      rcases hcl with hc | hc <;> linarith
    rw [hE]
    split_ifs with hm
    · have habs2 : |s.x0 - xmidOf s| = xmidOf s - s.x0 := by
        rw [abs_of_nonpos (by linarith)]
        ring
      rw [habs2, hxm'] at hnb
      exact ⟨by linarith, by linarith⟩
    · push_neg at hm
      have habs2 : |s.x0 - xmidOf s| = s.x0 - xmidOf s := abs_of_nonneg (by linarith)
      rw [habs2, hxm'] at hnb
      exact ⟨by linarith, by linarith⟩
  · -- clamped upward, golden trial positive and below small_step
    have hss0 : (0 : ℚ) < smallStep tol s := lt_of_le_of_lt (abs_nonneg _) hA
    rw [hG] at hsgn hA
    unfold goldenMove at hsgn hA
    split_ifs at hsgn hA with hm
    · have hfar : (s.xright - s.xleft) / 2 < s.xright - s.x0 := by
        rw [hxm'] at hm
        linarith
      exact ⟨by linarith, by linarith⟩
    · push_neg at hm
      exfalso
      nlinarith [hsgn]
  · -- clamped upward, parabolic interior not close
    push_neg at hcl
    have hss0 : (0 : ℚ) < smallStep tol s := lt_of_le_of_lt (abs_nonneg _) hA
    rw [hE] at hA
    have := abs_lt.mp hA
    exact ⟨by linarith [hcl.1], by linarith [hcl.2]⟩
  · -- clamped upward, too close: impossible since |±small_step| = small_step
    exfalso
    have hss0 : (0 : ℚ) < smallStep tol s := by
      rcases hcl with hc | hc <;> linarith
    rw [hE] at hA
    split_ifs at hA with hm
    · rw [abs_of_pos hss0] at hA
      exact absurd hA (lt_irrefl _)
    · rw [abs_neg, abs_of_pos hss0] at hA
      exact absurd hA (lt_irrefl _)
  · -- clamped downward, golden trial nonpositive and below small_step
    have hss0 : (0 : ℚ) < smallStep tol s := lt_of_le_of_lt (abs_nonneg _) hA
    rw [hG] at hsgn hA
    unfold goldenMove at hsgn hA
    split_ifs at hsgn hA with hm
    · exfalso
      have hx0r : s.x0 < s.xright := by
        rw [hxm'] at hm
        linarith
      nlinarith [hsgn]
    · push_neg at hm
      have hfar : (s.xright - s.xleft) / 2 ≤ s.x0 - s.xleft := by
        rw [hxm'] at hm
        linarith
      exact ⟨by linarith, by linarith⟩
  · -- clamped downward, parabolic interior not close
    push_neg at hcl
    have hss0 : (0 : ℚ) < smallStep tol s := lt_of_le_of_lt (abs_nonneg _) hA
    rw [hE] at hA
    have := abs_lt.mp hA
    exact ⟨by linarith [hcl.1], by linarith [hcl.2]⟩
  · -- clamped downward, too close: impossible
    exfalso
    have hss0 : (0 : ℚ) < smallStep tol s := by
      rcases hcl with hc | hc <;> linarith
    rw [hE] at hA
    split_ifs at hA with hm
    · rw [abs_of_pos hss0] at hA
      exact absurd hA (lt_irrefl _)
    · rw [abs_neg, abs_of_pos hss0] at hA
      exact absurd hA (lt_irrefl _)

/-- Re-ranking a point that lies inside the bracket only narrows the
bracket and keeps `x0` inside it. -/
theorem brentRank_narrow (s : BrentState) (tx ty m t : ℚ)
    (hl : s.xleft ≤ s.x0) (hr : s.x0 ≤ s.xright)
    (htl : s.xleft ≤ tx) (htr : tx ≤ s.xright) :
    s.xleft ≤ (brentRank s tx ty m t).xleft ∧
      (brentRank s tx ty m t).xright ≤ s.xright ∧
      (brentRank s tx ty m t).xleft ≤ (brentRank s tx ty m t).x0 ∧
      (brentRank s tx ty m t).x0 ≤ (brentRank s tx ty m t).xright := by
  unfold brentRank
  split_ifs <;>
    refine ⟨by linarith, by linarith, by linarith, by linarith⟩

/-- One completed `brentmin` iteration only narrows the bracket and keeps
the best point inside it. -/
theorem brentStep_narrow (criter : ℚ → ℚ) (critlim eps tol : ℚ) (iter : Nat)
    (s s' : BrentState) (hl : s.xleft ≤ s.x0) (hr : s.x0 ≤ s.xright)
    (h : brentStep criter critlim eps tol iter s = some s') :
    s.xleft ≤ s'.xleft ∧ s'.xright ≤ s.xright ∧ s'.xleft ≤ s'.x0 ∧ s'.x0 ≤ s'.xright := by
  unfold brentStep at h
  split_ifs at h with h1 h2 h3
  dsimp only at h
  injection h with h'
  subst h'
  obtain ⟨b1, b2⟩ := brentThisX_bounds tol s hl hr h2
  exact brentRank_narrow s (brentThisX tol s) (criter (brentThisX tol s))
    (brentChoose tol s).2 (brentChoose tol s).1 hl hr b1 b2

/-- `brentmin`'s loop only narrows the bracket and keeps the best point
inside it. -/
theorem brentLoop_narrow (criter : ℚ → ℚ) (critlim eps tol : ℚ) :
    ∀ (rem iter : Nat) (s : BrentState), s.xleft ≤ s.x0 → s.x0 ≤ s.xright →
      s.xleft ≤ (brentLoop criter critlim eps tol rem iter s).1.xleft ∧
        (brentLoop criter critlim eps tol rem iter s).1.xright ≤ s.xright ∧
        (brentLoop criter critlim eps tol rem iter s).1.xleft ≤
          (brentLoop criter critlim eps tol rem iter s).1.x0 ∧
        (brentLoop criter critlim eps tol rem iter s).1.x0 ≤
          (brentLoop criter critlim eps tol rem iter s).1.xright
  | 0, iter, s => fun hl hr => ⟨le_refl _, le_refl _, hl, hr⟩
  | rem+1, iter, s => by
    intro hl hr
    unfold brentLoop
    cases hs : brentStep criter critlim eps tol iter s with
    | none => exact ⟨le_refl _, le_refl _, hl, hr⟩
    | some s' =>
      dsimp only
      obtain ⟨a1, a2, a3, a4⟩ := brentStep_narrow criter critlim eps tol iter s s' hl hr hs
      obtain ⟨b1, b2, b3, b4⟩ := brentLoop_narrow criter critlim eps tol rem (iter+1) s' a3 a4
      exact ⟨a1.trans b1, b2.trans a2, b3, b4⟩

/-- C8 core: given a strict input bracket, `brentmin` only narrows it and
returns its best abscissa inside the returned bracket. -/
theorem brentmin_narrows (itmax : Nat) (critlim eps tol : ℚ) (criter : ℚ → ℚ)
    (xa xb xc y : ℚ) (h1 : xa < xb) (h2 : xb < xc) :
    xa ≤ (brentmin itmax critlim eps tol criter xa xb xc y).xa ∧
      (brentmin itmax critlim eps tol criter xa xb xc y).xc ≤ xc ∧
      (brentmin itmax critlim eps tol criter xa xb xc y).xa ≤
        (brentmin itmax critlim eps tol criter xa xb xc y).xb ∧
      (brentmin itmax critlim eps tol criter xa xb xc y).xb ≤
        (brentmin itmax critlim eps tol criter xa xb xc y).xc := by
  exact brentLoop_narrow criter critlim eps tol itmax 0 (brentInit xa xb xc y)
    (le_of_lt h1) (le_of_lt h2)

/-! ## POWELL invariants -/

theorem vadd_length (a b : List ℚ) : (vadd a b).length = min a.length b.length :=
  List.length_zipWith _ _ _

theorem vsub_length (a b : List ℚ) : (vsub a b).length = min a.length b.length :=
  List.length_zipWith _ _ _

theorem vsmul_length (t : ℚ) (v : List ℚ) : (vsmul t v).length = v.length :=
  List.length_map _ _

/-- Stepping a distance `0` along a direction of sufficient length is the
identity: `base + 0 • dir = base`. -/
theorem vadd_vsmul_zero : ∀ (base dir : List ℚ), base.length ≤ dir.length →
    vadd base (vsmul 0 dir) = base
  | [], _, _ => rfl
  | a :: base, [], h => by simp at h
  | a :: base, d :: dir, h => by
    have : base.length ≤ dir.length := by simpa using h
    simp only [vadd, vsmul, List.map_cons, List.zipWith_cons_cons]
    rw [show (0 : ℚ) * d = 0 by ring, add_zero]
    exact congrArg _ (vadd_vsmul_zero base dir this)

/-- `univar_crit` at `t = 0` is the criterion at the base point. -/
theorem univar_zero (criter : List ℚ → ℚ) (base dir : List ℚ)
    (h : base.length ≤ dir.length) : univar criter base dir 0 = criter base := by
  unfold univar
  rw [vadd_vsmul_zero base dir h]

/-- The grid point `k = 7` of `powell`'s 15-point `glob_min` call is
exactly `t = 0`, so the scan (when it is not cut short) evaluates the
criterion at the current point. -/
theorem grid_seven (w : ℚ) : -w + (7 : Nat) * globRate (-w) w (Int.natAbs 15) = 0 := by
  unfold globRate
  norm_num
  ring

/-- The bracketing loop around `glob_min` returns a triple whose center
value is the criterion at its center abscissa and is either at or below
`critlim` (an early scan exit) or at or below the value `f1 0` at the
current point. -/
theorem multLoop_y2 (p : PParams) (f1 : ℚ → ℚ) (scale fb : ℚ) :
    ∀ (fg : Nat) (mult : ℚ) (g : GTriple),
      multLoop p f1 scale fb fg mult = some g →
      g.y2 = f1 g.x2 ∧ (g.y2 ≤ p.critlim ∨ g.y2 ≤ f1 0)
  | 0, mult, g => fun h => Option.noConfusion h
  | fg+1, mult, g => by
    intro h
    unfold multLoop at h
    cases hg : glob_min p.fuel f1 (-(mult * scale)) (mult * scale) 15 p.critlim fb with
    | none =>
      rw [hg] at h
      simp at h
    | some r =>
      rw [hg] at h
      simp only [bind, Option.bind] at h
      have base : r.y2 = f1 r.x2 ∧ (r.y2 ≤ p.critlim ∨ r.y2 ≤ f1 0) := by
        obtain ⟨ha, hb⟩ := glob_min_y2_le p.fuel f1 (-(mult * scale)) (mult * scale)
          p.critlim fb 15 (by norm_num) r hg
        refine ⟨ha, ?_⟩
        rcases hb with hc | hgrid
        · exact Or.inl hc
        · right
          have h7 := hgrid 7 (by norm_num)
          rwa [grid_seven (mult * scale)] at h7
      split_ifs at h with h1 h2
      · injection h with h'
        subst h'
        exact base
      · exact multLoop_y2 p f1 scale fb fg (4 * mult) g h
      · injection h with h'
        subst h'
        exact base

/-- The `brentmin` call of `powell` can only keep or lower the bracketed
value, and returns the criterion value at the returned abscissa. -/
theorem powellBrent_ret (p : PParams) (conv : Nat) (f1 : ℚ → ℚ) (g : GTriple) :
    (powellBrent p conv f1 g).ret ≤ g.y2 ∧
      (g.y2 = f1 g.x2 →
        (powellBrent p conv f1 g).ret = f1 (powellBrent p conv f1 g).xb) := by
  unfold powellBrent
  split_ifs with h
  · exact brentmin_ret 40 p.critlim p.tol 1e-7 f1 g.x1 g.x2 g.x3 g.y2
  · exact brentmin_ret 20 p.critlim (10 * p.tol) 1e-5 f1 g.x1 g.x2 g.x3 g.y2

/-- The per-direction loop of `powell` never raises the running best value
above the bound `B` (any bound at or above both `critlim` and the entry
best value), keeps the point/value pair consistent, and preserves the
point's length.  The `goto FINISH` escape likewise returns a value at or
below `B`. -/
theorem dirLoop_mono (p : PParams) (conv : Nat) (replaced : Int) (B : ℚ)
    (hB : p.critlim ≤ B) :
    ∀ (rows : List (List ℚ)) (idir : Nat) (d : DirState),
      p.criter d.x = d.fbest → d.fbest ≤ B →
      (∀ row ∈ rows, d.x.length ≤ row.length) →
      ∀ res, dirLoop p conv replaced rows idir d = some res →
        (∀ d', res = Sum.inl d' →
          p.criter d'.x = d'.fbest ∧ d'.fbest ≤ B ∧ d'.x.length = d.x.length) ∧
        (∀ x' v, res = Sum.inr (x', v) → v ≤ B)
  | [], idir, d => by
    intro hc hf hlen res hres
    injection hres with hres'
    subst hres'
    exact ⟨fun d' hd' => by injection hd' with h'; subst h'; exact ⟨hc, hf, rfl⟩,
      fun x' v hv => by cases hv⟩
  | row :: rest, idir, d => by
    intro hc hf hlen res hres
    unfold dirLoop at hres
    split_ifs at hres with hskip
    · exact dirLoop_mono p conv replaced B hB rest (idir+1) d hc hf
        (fun r hr => hlen r (List.mem_cons_of_mem _ hr)) res hres
    · dsimp only at hres
      cases hg : multLoop p (univar p.criter d.x row) d.scale d.fbest 4 (1/10) with
      | none =>
        rw [hg] at hres
        cases hres
      | some g =>
        rw [hg] at hres
        simp only [bind, Option.bind] at hres
        have hrowlen : d.x.length ≤ row.length := hlen row (List.mem_cons_self _ _)
        obtain ⟨hgy, hgle⟩ := multLoop_y2 p (univar p.criter d.x row) d.scale d.fbest 4 (1/10) g hg
        have hg0 : univar p.criter d.x row 0 = d.fbest := by
          rw [univar_zero p.criter d.x row hrowlen, hc]
        have hy2B : g.y2 ≤ B := by
          rcases hgle with h | h
          · exact h.trans hB
          · rw [hg0] at h
            exact h.trans hf
        obtain ⟨hbr1, hbr2⟩ := powellBrent_ret p conv (univar p.criter d.x row) g
        have hret := hbr2 hgy
        have step : ∀ (del : ℚ) (idel : Nat),
            dirLoop p conv replaced rest (idir + 1)
              { x := vadd d.x (vsmul (powellBrent p conv (univar p.criter d.x row) g).xb row),
                fbest := (powellBrent p conv (univar p.criter d.x row) g).ret,
                delta := del, idelta := idel,
                scale := |(powellBrent p conv (univar p.criter d.x row) g).xb| / (p.n : ℚ) +
                  (1 - 1 / (p.n : ℚ)) * d.scale } = some res →
            (∀ d', res = Sum.inl d' →
              p.criter d'.x = d'.fbest ∧ d'.fbest ≤ B ∧ d'.x.length = d.x.length) ∧
            (∀ x' v, res = Sum.inr (x', v) → v ≤ B) := by
          intro del idel hres'
          obtain ⟨ih1, ih2⟩ := dirLoop_mono p conv replaced B hB rest (idir+1)
            { x := vadd d.x (vsmul (powellBrent p conv (univar p.criter d.x row) g).xb row),
              fbest := (powellBrent p conv (univar p.criter d.x row) g).ret,
              delta := del, idelta := idel,
              scale := |(powellBrent p conv (univar p.criter d.x row) g).xb| / (p.n : ℚ) +
                (1 - 1 / (p.n : ℚ)) * d.scale }
            hret.symm (hbr1.trans hy2B)
            (fun r hr => by
              simp only [vadd_length, vsmul_length]
              have := hlen r (List.mem_cons_of_mem _ hr)
              have := hrowlen
              omega)
            res hres'
          refine ⟨fun d' hd' => ?_, ih2⟩
          obtain ⟨a, b, c⟩ := ih1 d' hd'
          refine ⟨a, b, c.trans ?_⟩
          simp only [vadd_length, vsmul_length]
          omega
        split_ifs at hres with hcrit hbetter hbet2
        · -- goto FINISH with the glob_min improvement
          injection hres with hres'
          subst hres'
          refine ⟨fun d' hd' => Sum.noConfusion hd', fun x' v hv => ?_⟩
          injection hv with hv'
          injection hv' with hv1 hv2
          subst hv2
          exact hy2B
        · -- goto FINISH reverting to the base point
          injection hres with hres'
          subst hres'
          refine ⟨fun d' hd' => Sum.noConfusion hd', fun x' v hv => ?_⟩
          injection hv with hv'
          injection hv' with hv1 hv2
          subst hv2
          exact hf
        · -- continue: this direction gave the best improvement so far
          exact step _ _ hres
        · -- continue: earlier direction keeps the improvement record
          exact step _ _ hres

/-- The direction-replacement line search never raises the best value
above a bound `B` that dominates `critlim` and the entry best value, and
produces a consistent continuation state whose point keeps its length and
whose direction matrix is the old one with row `idelta` replaced by the
normalized average direction. -/
theorem replaceStep_mono (p : PParams) (conv : Nat) (d : DirState) (p0 : List ℚ)
    (direc : List (List ℚ)) (prev : ℚ) (iter : Nat) (B : ℚ)
    (hB : p.critlim ≤ B) (hc : p.criter d.x = d.fbest) (hf : d.fbest ≤ B)
    (hlen : d.x.length ≤ p0.length) :
    ∀ res, replaceStep p conv d p0 direc prev iter = some res →
      (∀ s', res = Sum.inl s' → s'.fbest ≤ B ∧ p.criter s'.x = s'.fbest ∧
        s'.x.length = d.x.length ∧
        s'.direc = direc.set d.idelta (p0.map (fun a => a / p.sqrtQ (vdot p0 p0))) ∧
        s'.iter = iter + 1) ∧
      (∀ x' v why, res = Sum.inr (x', v, why) → v ≤ B) := by
  intro res hres
  unfold replaceStep at hres
  dsimp only at hres
  set p0u := p0.map (fun a => a / p.sqrtQ (vdot p0 p0)) with hp0u
  have hulen : d.x.length ≤ p0u.length := by
    rw [hp0u, List.length_map]
    exact hlen
  cases hg : multLoop p (univar p.criter d.x p0u) d.scale d.fbest 4 (1/10) with
  | none =>
    rw [hg] at hres
    cases hres
  | some g =>
    rw [hg] at hres
    simp only [bind, Option.bind] at hres
    obtain ⟨hgy, hgle⟩ := multLoop_y2 p (univar p.criter d.x p0u) d.scale d.fbest 4 (1/10) g hg
    have hg0 : univar p.criter d.x p0u 0 = d.fbest := by
      rw [univar_zero p.criter d.x p0u hulen, hc]
    have hy2B : g.y2 ≤ B := by
      rcases hgle with h | h
      · exact h.trans hB
      · rw [hg0] at h
        exact h.trans hf
    obtain ⟨hbr1, hbr2⟩ := powellBrent_ret p conv (univar p.criter d.x p0u) g
    have hret := hbr2 hgy
    split_ifs at hres with hcrit hbetter
    · injection hres with hres'
      subst hres'
      refine ⟨fun s' hs' => Sum.noConfusion hs', fun x' v why hv => ?_⟩
      injection hv with hv'
      injection hv' with hv1 hv2
      injection hv2 with hv2 hv3
      subst hv2
      exact hy2B
    · injection hres with hres'
      subst hres'
      refine ⟨fun s' hs' => Sum.noConfusion hs', fun x' v why hv => ?_⟩
      injection hv with hv'
      injection hv' with hv1 hv2
      injection hv2 with hv2 hv3
      subst hv2
      exact hf
    · injection hres with hres'
      subst hres'
      refine ⟨fun s' hs' => ?_, fun x' v why hv => Sum.noConfusion hv⟩
      injection hs' with hs''
      subst hs''
      refine ⟨hbr1.trans hy2B, hret.symm, ?_, rfl, rfl⟩
      simp only [vadd_length, vsmul_length]
      omega

set_option maxHeartbeats 1000000 in
/-- C2 core: one outer iteration of `powell` never raises the tracked best
value.  Under the entry invariant (the best value is the criterion value
at the current point, and every direction row is long enough), a completed
iteration returns a state whose `fbest` is at or below the entry `fbest`
and which satisfies the same invariant; a halting iteration returns a
value at or below the entry `fbest`. -/
theorem powellIter_mono (p : PParams) (s : PowellState)
    (hc : p.criter s.x = s.fbest)
    (hrows : ∀ row ∈ s.direc, s.x.length ≤ row.length) :
    ∀ res, powellIter p s = some res →
      (∀ s', res = Sum.inl s' → s'.fbest ≤ s.fbest ∧ p.criter s'.x = s'.fbest ∧
        s'.x.length = s.x.length ∧ (∀ row ∈ s'.direc, s'.x.length ≤ row.length)) ∧
      (∀ x' v why, res = Sum.inr (x', v, why) → v ≤ s.fbest) := by
  intro res hres
  unfold powellIter at hres
  by_cases hcap : ((s.iter : Int) ≥ p.maxits ∧ p.maxits > 0)
  · rw [if_pos hcap] at hres
    injection hres with hres'
    subst hres'
    refine ⟨fun s' hs' => Sum.noConfusion hs', fun x' v why hv => ?_⟩
    injection hv with hv'
    injection hv' with hv1 hv2
    injection hv2 with hv2 hv3
    subst hv2
    exact le_refl _
  · rw [if_neg hcap] at hres
    by_cases hcrit : s.fbest < p.critlim
    · rw [if_pos hcrit] at hres
      injection hres with hres'
      subst hres'
      refine ⟨fun s' hs' => Sum.noConfusion hs', fun x' v why hv => ?_⟩
      injection hv with hv'
      injection hv' with hv1 hv2
      injection hv2 with hv2 hv3
      subst hv2
      exact le_refl _
    · rw [if_neg hcrit] at hres
      push_neg at hcrit
      dsimp only at hres
      by_cases hconv : (s.prev_best - s.fbest ≤
          (if |s.prev_best| ≤ 1 then p.tol else p.tol * |s.prev_best|) ∧ 2 ≤ s.conv + 1)
      · rw [if_pos hconv] at hres
        injection hres with hres'
        subst hres'
        refine ⟨fun s' hs' => Sum.noConfusion hs', fun x' v why hv => ?_⟩
        injection hv with hv'
        injection hv' with hv1 hv2
        injection hv2 with hv2 hv3
        subst hv2
        exact le_refl _
      · rw [if_neg hconv] at hres
        set conv' := if s.prev_best - s.fbest ≤
            (if |s.prev_best| ≤ 1 then p.tol else p.tol * |s.prev_best|) then s.conv + 1 else 0
          with hconv'
        cases hd : dirLoop p conv' s.replaced s.direc 0
            { x := s.x, fbest := s.fbest, delta := -1, idelta := 0, scale := s.scale } with
        | none =>
          rw [hd] at hres
          cases hres
        | some dres =>
          rw [hd] at hres
          simp only [bind, Option.bind] at hres
          obtain ⟨hin, hout⟩ := dirLoop_mono p conv' s.replaced s.fbest hcrit s.direc 0
            { x := s.x, fbest := s.fbest, delta := -1, idelta := 0, scale := s.scale }
            hc (le_refl _) hrows dres hd
          cases dres with
          | inr xv =>
            obtain ⟨x', fb'⟩ := xv
            dsimp only at hres
            injection hres with hres'
            subst hres'
            refine ⟨fun s' hs' => Sum.noConfusion hs', fun x'' v why hv => ?_⟩
            injection hv with hv'
            injection hv' with hv1 hv2
            injection hv2 with hv2 hv3
            subst hv2
            exact hout x' fb' rfl
          | inl d =>
            dsimp only at hres
            obtain ⟨hdc, hdf0, hdlen0⟩ := hin d rfl
            have hdlen : d.x.length = s.x.length := hdlen0
            have hdf : d.fbest ≤ s.fbest := hdf0
            set p0 := vsub d.x s.x with hp0
            set probe := vadd d.x p0 with hprobe
            have hp0len : p0.length = s.x.length := by
              rw [hp0, vsub_length, hdlen]
              simp
            have hproblen : (vadd d.x p0).length = d.x.length := by
              rw [vadd_length, hp0len, hdlen]
              simp
            set fval := p.criter probe with hfval
            have hfb1 : p.criter (if fval < d.fbest then probe else d.x) =
                (if fval < d.fbest then fval else d.fbest) := by
              split_ifs with h
              · rw [hfval]
              · exact hdc
            have hfb1le : (if fval < d.fbest then fval else d.fbest) ≤ s.fbest := by
              split_ifs with h
              · exact (le_of_lt h).trans hdf
              · exact hdf
            have hfb1lenx : (if fval < d.fbest then probe else d.x).length = s.x.length := by
              split_ifs with h
              · rw [hprobe, hproblen, hdlen]
              · exact hdlen
            by_cases hval : fval < s.fbest
            · rw [if_pos hval] at hres
              by_cases htest : 2 * (s.fbest - 2 * d.fbest + fval) *
                  (s.fbest - d.fbest - d.delta) ^ 2 < d.delta * (s.fbest - fval) ^ 2
              · rw [if_pos htest] at hres
                obtain ⟨rin, rout⟩ := replaceStep_mono p conv'
                  { x := if fval < d.fbest then probe else d.x,
                    fbest := if fval < d.fbest then fval else d.fbest,
                    delta := d.delta, idelta := d.idelta, scale := d.scale }
                  p0 s.direc s.fbest s.iter s.fbest hcrit hfb1 hfb1le
                  (by dsimp only; rw [hfb1lenx, hp0len])
                  res hres
                refine ⟨fun s' hs' => ?_, fun x' v why hv => rout x' v why hv⟩
                obtain ⟨a, b, c, dd, e⟩ := rin s' hs'
                refine ⟨a, b, by rw [c]; dsimp only; rw [hfb1lenx], ?_⟩
                intro row hrow
                rw [dd] at hrow
                rcases List.mem_or_eq_of_mem_set hrow with hmem | heq
                · rw [c]
                  dsimp only
                  rw [hfb1lenx]
                  exact hrows row hmem
                · rw [c, heq]
                  dsimp only
                  rw [hfb1lenx, List.length_map, hp0len]
              · rw [if_neg htest] at hres
                injection hres with hres'
                subst hres'
                refine ⟨fun s' hs' => ?_, fun x' v why hv => Sum.noConfusion hv⟩
                injection hs' with hs''
                subst hs''
                exact ⟨hfb1le, hfb1, hfb1lenx,
                  fun row hrow => by rw [hfb1lenx]; exact hrows row hrow⟩
            · rw [if_neg hval] at hres
              injection hres with hres'
              subst hres'
              refine ⟨fun s' hs' => ?_, fun x' v why hv => Sum.noConfusion hv⟩
              injection hs' with hs''
              subst hs''
              exact ⟨hfb1le, hfb1, hfb1lenx,
                fun row hrow => by rw [hfb1lenx]; exact hrows row hrow⟩

/-- Rows other than the one overwritten by `List.set` are unchanged. -/
theorem getD_set_of_ne {α : Type} (l : List α) (k j : Nat) (v : α) (dflt : α)
    (h : j ≠ k) : (l.set k v).getD j dflt = l.getD j dflt := by
  simp only [List.getD]
  rw [List.get?_set_ne v l (fun hkj => h hkj.symm)]

/-- Structural facts about the replacement branch: a continuation state has
the old direction matrix with exactly row `idelta` overwritten by the
normalized average direction, and an incremented iteration counter; a halt
from this branch carries reason `replCrit`. -/
theorem replaceStep_facts (p : PParams) (conv : Nat) (d : DirState) (p0 : List ℚ)
    (direc : List (List ℚ)) (prev : ℚ) (iter : Nat) :
    ∀ res, replaceStep p conv d p0 direc prev iter = some res →
      (∀ s', res = Sum.inl s' →
        s'.direc = direc.set d.idelta (p0.map (fun a => a / p.sqrtQ (vdot p0 p0))) ∧
        s'.iter = iter + 1) ∧
      (∀ x' v why, res = Sum.inr (x', v, why) → why = HaltWhy.replCrit) := by
  intro res hres
  unfold replaceStep at hres
  dsimp only at hres
  cases hg : multLoop p (univar p.criter d.x (p0.map (fun a => a / p.sqrtQ (vdot p0 p0))))
      d.scale d.fbest 4 (1/10) with
  | none =>
    rw [hg] at hres
    cases hres
  | some g =>
    rw [hg] at hres
    simp only [bind, Option.bind] at hres
    split_ifs at hres with hcrit hbetter
    · injection hres with hres'
      subst hres'
      refine ⟨fun s' hs' => Sum.noConfusion hs', fun x' v why hv => ?_⟩
      injection hv with hv'
      injection hv' with hv1 hv2
      injection hv2 with hv2 hv3
      subst hv3
      rfl
    · injection hres with hres'
      subst hres'
      refine ⟨fun s' hs' => Sum.noConfusion hs', fun x' v why hv => ?_⟩
      injection hv with hv'
      injection hv' with hv1 hv2
      injection hv2 with hv2 hv3
      subst hv3
      rfl
    · injection hres with hres'
      subst hres'
      refine ⟨fun s' hs' => ?_, fun x' v why hv => Sum.noConfusion hv⟩
      injection hs' with hs''
      subst hs''
      exact ⟨rfl, rfl⟩

set_option maxHeartbeats 1000000 in
/-- Structural facts about one outer iteration: a continuation state
either keeps the direction matrix unchanged, or — exactly as in the
replacement branch — its per-direction loop returned a record `d` whose
probe point improved on the entry best value, the replacement test passed,
and the matrix is the old one with only row `d.idelta` (the row that
produced the largest single-direction improvement) overwritten by the
unit-normalized average direction `(d.x - s.x) / sqrt((d.x - s.x)·(d.x - s.x))`,
every other row unchanged; the iteration counter is incremented, a
continuation is only reached when the iteration-cap test did not fire, and
a halt with reason `cap` happens exactly under the cap test
`iter ≥ maxits ∧ maxits > 0`. -/
theorem powellIter_facts (p : PParams) (s : PowellState) :
    ∀ res, powellIter p s = some res →
      (∀ s', res = Sum.inl s' →
        (s'.direc = s.direc ∨
          ∃ d : DirState,
            dirLoop p
                (if s.prev_best - s.fbest ≤
                    (if |s.prev_best| ≤ 1 then p.tol else p.tol * |s.prev_best|)
                  then s.conv + 1 else 0)
                s.replaced s.direc 0
                { x := s.x, fbest := s.fbest, delta := -1, idelta := 0, scale := s.scale }
              = some (Sum.inl d) ∧
            p.criter (vadd d.x (vsub d.x s.x)) < s.fbest ∧
            2 * (s.fbest - 2 * d.fbest + p.criter (vadd d.x (vsub d.x s.x))) *
                (s.fbest - d.fbest - d.delta) ^ 2
              < d.delta * (s.fbest - p.criter (vadd d.x (vsub d.x s.x))) ^ 2 ∧
            s'.direc = s.direc.set d.idelta
              ((vsub d.x s.x).map
                (fun a => a / p.sqrtQ (vdot (vsub d.x s.x) (vsub d.x s.x)))) ∧
            ∀ j, j ≠ d.idelta → s'.direc.getD j [] = s.direc.getD j []) ∧
        s'.iter = s.iter + 1 ∧ ¬((s.iter : Int) ≥ p.maxits ∧ p.maxits > 0)) ∧
      (∀ x' v why, res = Sum.inr (x', v, why) →
        (why = HaltWhy.cap ↔ ((s.iter : Int) ≥ p.maxits ∧ p.maxits > 0))) := by
  intro res hres
  unfold powellIter at hres
  by_cases hcap : ((s.iter : Int) ≥ p.maxits ∧ p.maxits > 0)
  · rw [if_pos hcap] at hres
    injection hres with hres'
    subst hres'
    refine ⟨fun s' hs' => Sum.noConfusion hs', fun x' v why hv => ?_⟩
    injection hv with hv'
    injection hv' with hv1 hv2
    injection hv2 with hv2 hv3
    subst hv3
    exact ⟨fun _ => hcap, fun _ => rfl⟩
  · rw [if_neg hcap] at hres
    by_cases hcrit : s.fbest < p.critlim
    · rw [if_pos hcrit] at hres
      injection hres with hres'
      subst hres'
      refine ⟨fun s' hs' => Sum.noConfusion hs', fun x' v why hv => ?_⟩
      injection hv with hv'
      injection hv' with hv1 hv2
      injection hv2 with hv2 hv3
      subst hv3
      exact ⟨fun hwhy => absurd hwhy (by simp), fun hc => absurd hc hcap⟩
    · rw [if_neg hcrit] at hres
      dsimp only at hres
      by_cases hconv : (s.prev_best - s.fbest ≤
          (if |s.prev_best| ≤ 1 then p.tol else p.tol * |s.prev_best|) ∧ 2 ≤ s.conv + 1)
      · rw [if_pos hconv] at hres
        injection hres with hres'
        subst hres'
        refine ⟨fun s' hs' => Sum.noConfusion hs', fun x' v why hv => ?_⟩
        injection hv with hv'
        injection hv' with hv1 hv2
        injection hv2 with hv2 hv3
        subst hv3
        exact ⟨fun hwhy => absurd hwhy (by simp), fun hc => absurd hc hcap⟩
      · rw [if_neg hconv] at hres
        set conv' := if s.prev_best - s.fbest ≤
            (if |s.prev_best| ≤ 1 then p.tol else p.tol * |s.prev_best|) then s.conv + 1 else 0
          with hconv'
        cases hd : dirLoop p conv' s.replaced s.direc 0
            { x := s.x, fbest := s.fbest, delta := -1, idelta := 0, scale := s.scale } with
        | none =>
          rw [hd] at hres
          cases hres
        | some dres =>
          rw [hd] at hres
          simp only [bind, Option.bind] at hres
          cases dres with
          | inr xv =>
            obtain ⟨x', fb'⟩ := xv
            dsimp only at hres
            injection hres with hres'
            subst hres'
            refine ⟨fun s' hs' => Sum.noConfusion hs', fun x'' v why hv => ?_⟩
            injection hv with hv'
            injection hv' with hv1 hv2
            injection hv2 with hv2 hv3
            subst hv3
            exact ⟨fun hwhy => absurd hwhy (by simp), fun hc => absurd hc hcap⟩
          | inl d =>
            dsimp only at hres
            set p0 := vsub d.x s.x with hp0
            set probe := vadd d.x p0 with hprobe
            set fval := p.criter probe with hfval
            by_cases hval : fval < s.fbest
            · rw [if_pos hval] at hres
              by_cases htest : 2 * (s.fbest - 2 * d.fbest + fval) *
                  (s.fbest - d.fbest - d.delta) ^ 2 < d.delta * (s.fbest - fval) ^ 2
              · rw [if_pos htest] at hres
                obtain ⟨rin, rout⟩ := replaceStep_facts p conv'
                  { x := if fval < d.fbest then probe else d.x,
                    fbest := if fval < d.fbest then fval else d.fbest,
                    delta := d.delta, idelta := d.idelta, scale := d.scale }
                  p0 s.direc s.fbest s.iter res hres
                refine ⟨fun s' hs' => ?_, fun x' v why hv => ?_⟩
                · obtain ⟨a, b⟩ := rin s' hs'
                  refine ⟨Or.inr ⟨d, rfl, hval, htest, a, fun j hj => ?_⟩, b, hcap⟩
                  rw [a]
                  exact getD_set_of_ne s.direc d.idelta j _ [] hj
                · have := rout x' v why hv
                  subst this
                  exact ⟨fun hwhy => absurd hwhy (by simp), fun hc => absurd hc hcap⟩
              · rw [if_neg htest] at hres
                injection hres with hres'
                subst hres'
                refine ⟨fun s' hs' => ?_, fun x' v why hv => Sum.noConfusion hv⟩
                injection hs' with hs''
                subst hs''
                exact ⟨Or.inl rfl, rfl, hcap⟩
            · rw [if_neg hval] at hres
              injection hres with hres'
              subst hres'
              refine ⟨fun s' hs' => ?_, fun x' v why hv => Sum.noConfusion hv⟩
              injection hs' with hs''
              subst hs''
              exact ⟨Or.inl rfl, rfl, hcap⟩

/-- C10 core: `powell`'s outer loop never halts with reason `cap` when
`maxits ≤ 0`, and when `maxits > 0` the number of completed loop bodies is
bounded by `maxits` (relative to the entry iteration counter). -/
theorem powellRun_facts (p : PParams) :
    ∀ (fuel : Nat) (s : PowellState) (cnt : Nat) (x : List ℚ) (v : ℚ)
      (why : HaltWhy) (n : Nat),
      powellRun p fuel s cnt = some (x, v, why, n) →
      (p.maxits ≤ 0 → why ≠ HaltWhy.cap) ∧
      (0 < p.maxits → n ≤ cnt + (p.maxits.toNat - s.iter))
  | 0, s, cnt => by
    intro x v why n h
    cases h
  | fuel+1, s, cnt => by
    intro x v why n h
    unfold powellRun at h
    cases hit : powellIter p s with
    | none =>
      rw [hit] at h
      cases h
    | some res =>
      rw [hit] at h
      obtain ⟨fin, fout⟩ := powellIter_facts p s res hit
      cases res with
      | inr xvw =>
        obtain ⟨x', v', why'⟩ := xvw
        dsimp only at h
        injection h with h'
        simp only [Prod.mk.injEq] at h'
        obtain ⟨rfl, rfl, rfl, rfl⟩ := h'
        have hiff := fout x' v' why' rfl
        constructor
        · intro hm hwhy
          obtain ⟨-, hpos⟩ := hiff.mp hwhy
          omega
        · intro _
          omega
      | inl s' =>
        dsimp only at h
        obtain ⟨-, hiter, hncap⟩ := fin s' rfl
        obtain ⟨ih1, ih2⟩ := powellRun_facts p fuel s' (cnt+1) x v why n h
        refine ⟨ih1, ?_⟩
        intro hm
        have h2 := ih2 hm
        have hlt : (s.iter : Int) < p.maxits := by
          by_contra hge
          push_neg at hge
          exact hncap ⟨hge, hm⟩
        rw [hiter] at h2
        omega

/-- C3 amended, `powell` half: the outer-loop `critlim` stop is strict.
A call entering with best value strictly below `critlim` halts at the
`critlim` check of its first iteration without running any loop body. -/
theorem powell_strict_stop (p : PParams) (fuel : Nat) (s : PowellState) (cnt : Nat)
    (h0 : s.iter = 0) (h : s.fbest < p.critlim) :
    powellRun p (fuel+1) s cnt = some (s.x, s.fbest, HaltWhy.crit, cnt) := by
  unfold powellRun powellIter
  have hcap : ¬((s.iter : Int) ≥ p.maxits ∧ p.maxits > 0) := by
    rw [h0]
    rintro ⟨h1, h2⟩
    omega
  rw [if_neg hcap, if_pos h]

/-- The direction matrix `powell` starts from is the identity:
entry `(i, j)` is `1` exactly on the diagonal. -/
theorem idMat_entries (n : Nat) (i j : Nat) (hi : i < n) (hj : j < n) :
    ((idMat n).getD i []).getD j 0 = if j = i then (1 : ℚ) else 0 := by
  have hlen : (idMat n).length = n := by
    simp [idMat]
  have hrow : (idMat n).getD i [] = (List.range n).map (fun k => if k = i then (1:ℚ) else 0) := by
    rw [List.getD_eq_getElem _ _ (by omega)]
    simp [idMat]
  rw [hrow]
  rw [List.getD_eq_getElem _ _ (by simpa using hj)]
  simp

/-! ## Shared helper for the golden-section fallback -/

/-- When a parabolic attempt is made (`|movement| > small_step`) but the
step fails the shrink test or does not land strictly inside the bracket,
the chosen trial is the golden-section step toward the larger half. -/
theorem brentChoose_golden (tol : ℚ) (s : BrentState)
    (hmv : |s.movement| > smallStep tol s)
    (hrej : ¬(2 * |parTrial s| < |s.movement|) ∨ parTrial s + s.x0 ≤ s.xleft ∨
      s.xright ≤ parTrial s + s.x0) :
    brentChoose tol s = (0.3819660 * goldenMove s, goldenMove s) := by
  unfold brentChoose
  rw [if_pos hmv]
  dsimp only
  rw [if_neg]
  rintro ⟨h1, h2, h3⟩
  rcases hrej with h | h | h
  · exact h h1
  · exact absurd h2 (not_lt.mpr h)
  · exact absurd h3 (not_lt.mpr h)


/-! ## The claims -/

/-- C1: for every call of the Bracketer (`glob_min`) that completes
normally (`= some r`) with `npts ≥ 1`, the returned triple satisfies
`y2 ≤ y1` and `y2 ≤ y3` (ties permitted), for every criterion function. -/
theorem claim_C1 (fuel : Nat) (criter : ℚ → ℚ) (low high critlim y2i : ℚ)
    (npts : Int) (h : 1 ≤ npts) (r : GTriple)
    (hr : glob_min fuel criter low high npts critlim y2i = some r) :
    r.y2 ≤ r.y1 ∧ r.y2 ≤ r.y3 :=
  glob_min_bracket fuel criter low high critlim y2i npts h r hr

theorem claim_C1_witness :
    ((1 : Int) ≤ 6 ∧
      glob_min 10 (fun x => (x - 3)^2) 0 5 6 (-1) 0 =
        some { x1 := 2, y1 := 1, x2 := 3, y2 := 0, x3 := 4, y3 := 1 }) ∧
    ((0 : ℚ) ≤ 1 ∧ (0 : ℚ) ≤ 1) :=
  ⟨⟨by norm_num, by with_unfolding_all decide⟩,
    claim_C1 10 (fun x => (x - 3)^2) 0 5 (-1) 0 6 (by norm_num)
      { x1 := 2, y1 := 1, x2 := 3, y2 := 0, x3 := 4, y3 := 1 }
      (by with_unfolding_all decide)⟩

/-- C3 (amended): the `critlim` stops of `brentmin` (line 230) and of
`powell`'s outer loop (line 410) are strict (`<`), not inclusive: a call
entering with best value strictly below `critlim` stops at that check
immediately (no iterations, inputs returned unchanged), while a call whose
best value exactly equals `critlim` does not stop at that check (see the
counterexample). -/
theorem claim_C3 :
    (∀ (itmax : Nat) (critlim eps tol : ℚ) (criter : ℚ → ℚ) (xa xb xc y : ℚ),
      y < critlim →
      brentmin itmax critlim eps tol criter xa xb xc y =
        { xa := xa, xb := xb, xc := xc, ret := y, iters := 0 }) ∧
    (∀ (p : PParams) (fuel : Nat) (s : PowellState) (cnt : Nat),
      s.iter = 0 → s.fbest < p.critlim →
      powellRun p (fuel + 1) s cnt = some (s.x, s.fbest, HaltWhy.crit, cnt)) :=
  ⟨brentmin_strict_stop, powell_strict_stop⟩

/-- C3 counterexample: with the constant criterion `1` and
`critlim = 1 = y` (best value exactly equal to `critlim`), `brentmin` does
not terminate at the `critlim` check: it runs all three permitted
iterations (each evaluating the criterion) instead of zero. -/
theorem claim_C3_counterexample :
    (brentmin 3 1 1e-10 1e-5 (fun _ => (1 : ℚ)) 0 1 2 1).iters = 3 := by
  with_unfolding_all decide

theorem claim_C3_witness :
    ((3 : ℚ) < 10 ∧
      brentmin 5 10 (1/2) (1/2) (fun x => x) 0 1 2 3 =
        { xa := 0, xb := 1, xc := 2, ret := 3, iters := 0 }) ∧
    (pwStateC3.iter = 0 ∧
      powellRun pwParamsC3 (1 + 1) pwStateC3 0 =
        some (pwStateC3.x, pwStateC3.fbest, HaltWhy.crit, 0)) :=
  ⟨⟨by norm_num, claim_C3.1 5 10 (1/2) (1/2) (fun x => x) 0 1 2 3 (by norm_num)⟩,
    ⟨rfl, claim_C3.2 pwParamsC3 1 pwStateC3 0 rfl (by with_unfolding_all decide)⟩⟩

/-- C4 (amended): in every `brentmin` iteration in which a parabolic step
is attempted (`|movement| > small_step`) but rejected because it fails the
shrink test or does not land strictly inside the bracket, the chosen trial
is the golden-section step of ratio `0.3819660` toward the larger half of
the bracket.  (As stated the claim also covered the too-close-to-endpoint
case; there the code instead sets the trial to `±small_step` — see the
counterexample.) -/
theorem claim_C4 (tol : ℚ) (s : BrentState)
    (hmv : |s.movement| > smallStep tol s)
    (hrej : ¬(2 * |parTrial s| < |s.movement|) ∨ parTrial s + s.x0 ≤ s.xleft ∨
      s.xright ≤ parTrial s + s.x0) :
    brentChoose tol s = (0.3819660 * goldenMove s, goldenMove s) :=
  brentChoose_golden tol s hmv hrej

/-- C4 counterexample: `c4runState` is reached after two completed
iterations of a concrete `brentmin` run (criterion `(x - m)^2`, bracket
`(0, 1, 2)`, `tol = 1/10`).  In the next iteration the parabolic step is
attempted, passes the shrink and strict-interiority tests, but lands
within `2 * small_step` of the right endpoint: the chosen trial is then
`-small_step`, not the golden-section step — refuting the claim as
stated. -/
theorem claim_C4_counterexample :
    (brentStates (fun x => (x - ((1 - 0.3819660)^2 + 1/10))^2) (-1) 1e-9 (1/10) 2 0
        (brentInit 0 1 2 ((1 - ((1 - 0.3819660)^2 + 1/10))^2))).isSome = true ∧
    |c4runState.movement| > smallStep (1/10) c4runState ∧
    2 * |parTrial c4runState| < |c4runState.movement| ∧
    c4runState.xleft < parTrial c4runState + c4runState.x0 ∧
    parTrial c4runState + c4runState.x0 < c4runState.xright ∧
    c4runState.xright - (parTrial c4runState + c4runState.x0) <
      2 * smallStep (1/10) c4runState ∧
    brentChoose (1/10) c4runState ≠
      (0.3819660 * goldenMove c4runState, goldenMove c4runState) := by
  with_unfolding_all decide

theorem claim_C4_witness :
    (|brentWitState.movement| > smallStep (1/10) brentWitState ∧
      ¬(2 * |parTrial brentWitState| < |brentWitState.movement|)) ∧
    brentChoose (1/10) brentWitState =
      (0.3819660 * goldenMove brentWitState, goldenMove brentWitState) :=
  ⟨⟨by with_unfolding_all decide, by with_unfolding_all decide⟩,
    claim_C4 (1/10) brentWitState (by with_unfolding_all decide)
      (Or.inl (by with_unfolding_all decide))⟩

/-- C5: the Bracketer's grid scan (from `glob_min`'s entry state, linear
spacing) terminates early — processes fewer than `npts` points — exactly
when some proper prefix of the scan ends with the best value at or below
`critlim`, the best point not the first one scanned (`ibest > 0`, so a
left-neighbor value exists), and a later point already evaluated without
improving (`turned_up`, giving the right-neighbor value). -/
theorem claim_C5 (criter : ℚ → ℚ) (low high critlim y2i : ℚ) (np : Nat) :
    (scanAux criter critlim (globRate low high np) false np 0 (globInit low y2i)).2 < np ↔
      ∃ m, 0 < m ∧ m < np ∧
        earlyExit critlim (scanNB criter (globRate low high np) false m 0 (globInit low y2i)) := by
  have h := scanAux_early_iff criter critlim (globRate low high np) false np 0
    (globInit low y2i)
  simpa using h

/-- C6 (amended): in a `brentmin` iteration that attempts a parabolic step,
the division `numer/denom` is performed only when `|denom| > 1e-40`; when
`|denom| ≤ 1e-40` no division occurs and the trial is set to the sentinel
`1e40`, and whenever the previous tracked movement is of ordinary size
(`|movement| ≤ 2e40`) the sentinel fails the shrink test and a
golden-section step is taken instead.  (As stated the claim promised the
golden fallback unconditionally; for brackets wider than `2e40` the
sentinel can pass the acceptance test — see the counterexample.) -/
theorem claim_C6 (tol : ℚ) (s : BrentState)
    (hmv : |s.movement| > smallStep tol s)
    (hd : |parDenom s| ≤ 1e-40) :
    parTrial s = 1e40 ∧
      (|s.movement| ≤ 2e40 →
        brentChoose tol s = (0.3819660 * goldenMove s, goldenMove s)) := by
  have hp : parTrial s = 1e40 := by
    unfold parTrial
    rw [if_neg (not_lt.mpr hd)]
  refine ⟨hp, fun hm => brentChoose_golden tol s hmv (Or.inl ?_)⟩
  rw [hp]
  intro hcon
  have habs : |(1e40 : ℚ)| = 1e40 := by
    rw [abs_of_pos]
    norm_num
  rw [habs] at hcon
  have : (2e40 : ℚ) = 2 * 1e40 := by norm_num
  rw [this] at hm
  exact absurd (lt_of_lt_of_le hcon hm) (lt_irrefl _)

/-- C6 counterexample: `c6runState` is reached after one completed
iteration of a concrete `brentmin` run (constant criterion on the bracket
`(-1e41, 0, 1e41)`).  Its next iteration attempts a parabolic step with
`denom = 0` (so `|denom| ≤ 1e-40` and the sentinel `1e40` is produced),
yet because the previous movement has magnitude `1e41 > 2e40` the sentinel
passes the acceptance test: the chosen trial is the sentinel itself, not a
golden-section step — refuting the claim as stated. -/
theorem claim_C6_counterexample :
    (brentStates (fun _ => (1 : ℚ)) 0 1e-10 1e-5 1 0
        (brentInit (-1e41) 0 1e41 1)).isSome = true ∧
    |c6runState.movement| > smallStep 1e-5 c6runState ∧
    |parDenom c6runState| ≤ 1e-40 ∧
    brentChoose 1e-5 c6runState ≠
      (0.3819660 * goldenMove c6runState, goldenMove c6runState) := by
  with_unfolding_all decide

theorem claim_C6_witness :
    (|brentWitStateC6.movement| > smallStep (1/10) brentWitStateC6 ∧
      |parDenom brentWitStateC6| ≤ 1e-40) ∧
    (parTrial brentWitStateC6 = 1e40 ∧
      (|brentWitStateC6.movement| ≤ 2e40 →
        brentChoose (1/10) brentWitStateC6 =
          (0.3819660 * goldenMove brentWitStateC6, goldenMove brentWitStateC6))) :=
  ⟨⟨by with_unfolding_all decide, by with_unfolding_all decide⟩,
    claim_C6 (1/10) brentWitStateC6 (by with_unfolding_all decide)
      (by with_unfolding_all decide)⟩

/-- C7: for every constant (perfectly flat) criterion, `glob_min`
terminates within a bounded number of steps — boundary-extension fuel `2`
always suffices, each extension loop exiting on its three-equal-values
check — and `brentmin` always completes within its `itmax` iteration cap;
neither loops indefinitely. -/
theorem claim_C7 :
    (∀ (c low high critlim y2i : ℚ) (npts : Int), 1 ≤ npts →
      (glob_min 2 (fun _ => c) low high npts critlim y2i).isSome = true) ∧
    (∀ (itmax : Nat) (critlim eps tol : ℚ) (criter : ℚ → ℚ) (xa xb xc y : ℚ),
      (brentmin itmax critlim eps tol criter xa xb xc y).iters ≤ itmax) :=
  ⟨glob_min_const_some,
    fun itmax critlim eps tol criter xa xb xc y =>
      brentLoop_le criter critlim eps tol itmax 0 (brentInit xa xb xc y)⟩

theorem claim_C7_witness :
    ((1 : Int) ≤ 3 ∧ (glob_min 2 (fun _ => (7 : ℚ)) 0 1 3 0 0).isSome = true) ∧
    (brentmin 4 0 1 1 (fun x => x) 0 1 2 5).iters ≤ 4 :=
  ⟨⟨by norm_num, claim_C7.1 7 0 1 0 0 3 (by norm_num)⟩,
    claim_C7.2 4 0 1 1 (fun x => x) 0 1 2 5⟩

/-- C8: for every call of `brentmin` whose inputs form a bracket
(`xa < xb < xc` with the supplied center value `y` no greater than the
criterion values at the endpoints), the bracket is only narrowed, never
widened: on return `xa' ≥ xa`, `xc' ≤ xc`, and the returned best abscissa
satisfies `xa' ≤ xb' ≤ xc'`. -/
theorem claim_C8 (itmax : Nat) (critlim eps tol : ℚ) (criter : ℚ → ℚ)
    (xa xb xc y : ℚ) (h1 : xa < xb) (h2 : xb < xc)
    (h3 : y ≤ criter xa) (h4 : y ≤ criter xc) :
    xa ≤ (brentmin itmax critlim eps tol criter xa xb xc y).xa ∧
      (brentmin itmax critlim eps tol criter xa xb xc y).xc ≤ xc ∧
      (brentmin itmax critlim eps tol criter xa xb xc y).xa ≤
        (brentmin itmax critlim eps tol criter xa xb xc y).xb ∧
      (brentmin itmax critlim eps tol criter xa xb xc y).xb ≤
        (brentmin itmax critlim eps tol criter xa xb xc y).xc :=
  brentmin_narrows itmax critlim eps tol criter xa xb xc y h1 h2

theorem claim_C8_witness :
    ((0 : ℚ) < 1 ∧ (1 : ℚ) < 2 ∧ (0 : ℚ) ≤ ((0 : ℚ) - 1)^2 ∧ (0 : ℚ) ≤ ((2 : ℚ) - 1)^2) ∧
    (0 ≤ (brentmin 2 (-1) (1/100) (1/10) (fun x => (x - 1)^2) 0 1 2 0).xa ∧
      (brentmin 2 (-1) (1/100) (1/10) (fun x => (x - 1)^2) 0 1 2 0).xc ≤ 2 ∧
      (brentmin 2 (-1) (1/100) (1/10) (fun x => (x - 1)^2) 0 1 2 0).xa ≤
        (brentmin 2 (-1) (1/100) (1/10) (fun x => (x - 1)^2) 0 1 2 0).xb ∧
      (brentmin 2 (-1) (1/100) (1/10) (fun x => (x - 1)^2) 0 1 2 0).xb ≤
        (brentmin 2 (-1) (1/100) (1/10) (fun x => (x - 1)^2) 0 1 2 0).xc) :=
  ⟨⟨by norm_num, by norm_num, by norm_num, by norm_num⟩,
    claim_C8 2 (-1) (1/100) (1/10) (fun x => (x - 1)^2) 0 1 2 0
      (by norm_num) (by norm_num) (by norm_num) (by norm_num)⟩

/-- C2: in every call of `powell` (whose input `ystart` is, per its
contract, the criterion value at the starting point), the tracked best
value never increases between successive outer iterations — in exact real
arithmetic every per-direction line search, the extrapolation probe, and
the replacement-direction line search can only keep or lower `fbest`.
Formally: under the entry invariant `criter x = fbest` (established by the
contract at the first iteration and preserved by this very theorem for all
later ones) a completed iteration ends with `fbest' ≤ fbest` and the
invariant again, and a halting iteration returns a value `≤ fbest`. -/
theorem claim_C2 (p : PParams) (s : PowellState)
    (hc : p.criter s.x = s.fbest)
    (hrows : ∀ row ∈ s.direc, s.x.length ≤ row.length) :
    ∀ res, powellIter p s = some res →
      (∀ s', res = Sum.inl s' → s'.fbest ≤ s.fbest ∧ p.criter s'.x = s'.fbest ∧
        s'.x.length = s.x.length ∧ (∀ row ∈ s'.direc, s'.x.length ≤ row.length)) ∧
      (∀ x' v why, res = Sum.inr (x', v, why) → v ≤ s.fbest) :=
  powellIter_mono p s hc hrows

theorem claim_C2_witness :
    (pwParams.criter pwState.x = pwState.fbest ∧
      (∀ row ∈ pwState.direc, pwState.x.length ≤ row.length) ∧
      powellIter pwParams pwState =
        some (Sum.inr (pwState.x, pwState.fbest, HaltWhy.cap))) ∧
    pwState.fbest ≤ pwState.fbest :=
  ⟨⟨rfl, by with_unfolding_all decide, by with_unfolding_all decide⟩,
    (claim_C2 pwParams pwState rfl (by with_unfolding_all decide)
      (Sum.inr (pwState.x, pwState.fbest, HaltWhy.cap))
      (by with_unfolding_all decide)).2 pwState.x pwState.fbest HaltWhy.cap rfl⟩

/-- C9: `powell` sets the `n × n` direction matrix to the identity at the
start of every call (its entry state `powellInit` has entry `(i, j)` equal
to `1` exactly on the diagonal), and each outer iteration modifies at most
one row of `direc`: either the matrix is returned unchanged, or the
per-direction loop returned a record `d` tracking the largest
single-direction improvement in `d.delta`/`d.idelta`, the extrapolated
probe improved on the entry best value, the replacement test passed, and
exactly row `d.idelta` is overwritten with the unit-normalized
average-direction vector `(d.x - s.x) / sqrt((d.x - s.x)·(d.x - s.x))`,
with every other row unchanged by that iteration. -/
theorem claim_C9 :
    (∀ (n : Nat) (x : List ℚ) (ystart : ℚ) (i j : Nat), i < n → j < n →
      (((powellInit n x ystart).direc.getD i []).getD j 0) = if j = i then (1 : ℚ) else 0) ∧
    (∀ (p : PParams) (s : PowellState) (res : PowellState ⊕ (List ℚ × ℚ × HaltWhy)),
      powellIter p s = some res → ∀ s', res = Sum.inl s' →
        s'.direc = s.direc ∨
        ∃ d : DirState,
          dirLoop p
              (if s.prev_best - s.fbest ≤
                  (if |s.prev_best| ≤ 1 then p.tol else p.tol * |s.prev_best|)
                then s.conv + 1 else 0)
              s.replaced s.direc 0
              { x := s.x, fbest := s.fbest, delta := -1, idelta := 0, scale := s.scale }
            = some (Sum.inl d) ∧
          p.criter (vadd d.x (vsub d.x s.x)) < s.fbest ∧
          2 * (s.fbest - 2 * d.fbest + p.criter (vadd d.x (vsub d.x s.x))) *
              (s.fbest - d.fbest - d.delta) ^ 2
            < d.delta * (s.fbest - p.criter (vadd d.x (vsub d.x s.x))) ^ 2 ∧
          s'.direc = s.direc.set d.idelta
            ((vsub d.x s.x).map
              (fun a => a / p.sqrtQ (vdot (vsub d.x s.x) (vsub d.x s.x)))) ∧
          ∀ j, j ≠ d.idelta → s'.direc.getD j [] = s.direc.getD j []) :=
  ⟨fun n x ystart i j hi hj => idMat_entries n i j hi hj,
    fun p s res hres s' hs' => ((powellIter_facts p s res hres).1 s' hs').1⟩

theorem claim_C9_witness :
    ((0 : Nat) < 2 ∧ (1 : Nat) < 2 ∧
      (((powellInit 2 [3, 4] 9).direc.getD 0 []).getD 1 0) = if (1 : Nat) = 0 then (1 : ℚ) else 0) ∧
    (powellIter pwParamsC9 pwStateC9 = some (Sum.inl c9IterState) ∧
      (c9IterState.direc = pwStateC9.direc ∨
        ∃ d : DirState,
          dirLoop pwParamsC9
              (if pwStateC9.prev_best - pwStateC9.fbest ≤
                  (if |pwStateC9.prev_best| ≤ 1 then pwParamsC9.tol
                    else pwParamsC9.tol * |pwStateC9.prev_best|)
                then pwStateC9.conv + 1 else 0)
              pwStateC9.replaced pwStateC9.direc 0
              { x := pwStateC9.x, fbest := pwStateC9.fbest, delta := -1, idelta := 0,
                scale := pwStateC9.scale }
            = some (Sum.inl d) ∧
          pwParamsC9.criter (vadd d.x (vsub d.x pwStateC9.x)) < pwStateC9.fbest ∧
          2 * (pwStateC9.fbest - 2 * d.fbest +
              pwParamsC9.criter (vadd d.x (vsub d.x pwStateC9.x))) *
              (pwStateC9.fbest - d.fbest - d.delta) ^ 2
            < d.delta *
              (pwStateC9.fbest - pwParamsC9.criter (vadd d.x (vsub d.x pwStateC9.x))) ^ 2 ∧
          c9IterState.direc = pwStateC9.direc.set d.idelta
            ((vsub d.x pwStateC9.x).map
              (fun a => a / pwParamsC9.sqrtQ
                (vdot (vsub d.x pwStateC9.x) (vsub d.x pwStateC9.x)))) ∧
          ∀ j, j ≠ d.idelta →
            c9IterState.direc.getD j [] = pwStateC9.direc.getD j [])) :=
  ⟨⟨by norm_num, by norm_num,
      claim_C9.1 2 [3, 4] 9 0 1 (by norm_num) (by norm_num)⟩,
    ⟨by with_unfolding_all decide,
      claim_C9.2 pwParamsC9 pwStateC9 (Sum.inl c9IterState)
        (by with_unfolding_all decide) c9IterState rfl⟩⟩

/-- C10: `powell` enforces its iteration cap only when `maxits > 0`: a run
with `maxits ≤ 0` can never halt with reason `cap` (it stops only via the
`critlim` test, the convergence counter, or the in-loop `critlim` exits),
while for `maxits > 0` the number of completed outer-loop bodies is at
most `maxits` (less the iterations already counted on entry). -/
theorem claim_C10 (p : PParams) (fuel : Nat) (s : PowellState) (cnt : Nat)
    (x : List ℚ) (v : ℚ) (why : HaltWhy) (n : Nat)
    (h : powellRun p fuel s cnt = some (x, v, why, n)) :
    (p.maxits ≤ 0 → why ≠ HaltWhy.cap) ∧
      (0 < p.maxits → n ≤ cnt + (p.maxits.toNat - s.iter)) :=
  powellRun_facts p fuel s cnt x v why n h

theorem claim_C10_witness :
    powellRun pwParamsC10 3 pwStateC10 0 =
        some (pwStateC10.x, pwStateC10.fbest, HaltWhy.cap, 0) ∧
    ((pwParamsC10.maxits ≤ 0 → HaltWhy.cap ≠ HaltWhy.cap) ∧
      (0 < pwParamsC10.maxits → 0 ≤ 0 + (pwParamsC10.maxits.toNat - pwStateC10.iter))) :=
  ⟨by with_unfolding_all decide,
    claim_C10 pwParamsC10 3 pwStateC10 0 pwStateC10.x pwStateC10.fbest HaltWhy.cap 0
      (by with_unfolding_all decide)⟩
